import Mathlib

/-!
# Status / StatusHandler

A shallow embedding of `StatusHandler.h` (the reference counted pool of
descriptions) and of `Status.h` (the by-value status holding a code, a
severity and a 16 bit index into the pool), followed by the properties
proved about them.

Conventions of the embedding.

* The pool `Status::s_shandler` is process wide state; here it is passed
  explicitly: an operation takes the pool and returns the new pool.
* `std::vector<Element>` is a `List Element`, `std::stack<unsigned int>` is a
  `List Nat` whose head is the top of the stack.
* `std::uint8_t refCounter` is a `Nat` updated modulo `256`; the bit fields of
  `Status::Data` are `Nat`s stored modulo `2 ^ 12`, `2 ^ 4` and `2 ^ 16`.
* A failed `ASSERT` ends the operation with an `Abort` value. The check
  `ASSERT(index < m_elements.size())` is the `none` branch of the lookup
  `m_elements[index]?`; `ASSERT(s_shandler != 0)` always holds since the pool
  is passed to the operation.
* A text is a `String`, which may hold the terminator character like a
  `std::string`; the null `const char*` is `none`. What is read through a
  `const char*` (the result of `description()`, a C string argument) is the
  text up to its first terminator, `c_str`.
* The counter `m_maxValReach` (compiled only under `DEBUG`, never read) is
  left out.
-/

namespace StatusLib

/-! ## Definitions -/

/-- Modelled from the spec: the `ASSERT` macro of `Debug.h`, which is not among
the sources. The spec calls a violated contract a fatal assertion; the value
names the assertion that failed. -/
inductive Abort where
  | emptyFreeStack
  | indexOutOfRange
  | refCounterZero
  | refCounterNotZero
  | noDescription
  | notLive
  deriving DecidableEq, Repr

/-- The struct `StatusHandler::Element` with `Type = std::string`. -/
structure Element where
  data : String
  refCounter : Nat
  deriving DecidableEq, Repr

/-- The class `StatusHandler<std::string>`: the slots and the stack of free
indices (head of the list = top of the stack). -/
structure StatusHandler where
  m_elements : List Element
  m_indices : List Nat
  deriving DecidableEq, Repr

/-- The loop of the constructor that pushes `0, 1, ..., n - 1` on the stack. -/
def pushIndices : Nat → List Nat → List Nat
  | 0, st => st
  | n + 1, st => n :: pushIndices n st

/-- The constructor `StatusHandler::StatusHandler(initSize)`: `resize` creates
`initSize` elements with `refCounter = 0` and empty data, then every index is
pushed in increasing order, so that `initSize - 1` ends on top. -/
def StatusHandler.init (initSize : Nat) : StatusHandler :=
  { m_elements := List.replicate initSize { data := "", refCounter := 0 },
    m_indices := pushIndices initSize [] }

/-- The method `StatusHandler::returnAvailableIndex`. -/
def StatusHandler.returnAvailableIndex (h : StatusHandler) (index : Nat) :
    Except Abort StatusHandler :=
  match h.m_elements[index]? with
  | none => Except.error Abort.indexOutOfRange              -- ASSERT(index < size)
  | some e =>
    if e.refCounter = 0 then                                -- ASSERT(refCounter == 0)
      Except.ok { h with m_indices := index :: h.m_indices }  -- m_indices.push(index)
    else Except.error Abort.refCounterNotZero

/-- The method `StatusHandler::incrementRef`: the 8 bit counter wraps. -/
def StatusHandler.incrementRef (h : StatusHandler) (index : Nat) :
    Except Abort StatusHandler :=
  match h.m_elements[index]? with
  | none => Except.error Abort.indexOutOfRange              -- ASSERT(index < size)
  | some e =>
    let e1 : Element := { e with refCounter := (e.refCounter + 1) % 256 }
    Except.ok { h with m_elements := h.m_elements.set index e1 }

/-- The method `StatusHandler::getAvailableIndex`: returns the new pool and the
index that was on top of the stack. -/
def StatusHandler.getAvailableIndex (h : StatusHandler) :
    Except Abort (StatusHandler × Nat) :=
  match h.m_indices with
  | [] => Except.error Abort.emptyFreeStack                 -- ASSERT(!m_indices.empty())
  | available :: rest =>                                    -- top(), pop()
    match StatusHandler.incrementRef { h with m_indices := rest } available with
    | Except.error a => Except.error a
    | Except.ok h1 => Except.ok (h1, available)

/-- The method `StatusHandler::decrementRef`: the 8 bit counter is decremented
(wrapping); when it is `0` afterwards the index is pushed back and the data is
cleared. -/
def StatusHandler.decrementRef (h : StatusHandler) (index : Nat) :
    Except Abort StatusHandler :=
  match h.m_elements[index]? with
  | none => Except.error Abort.indexOutOfRange              -- ASSERT(index < size)
  | some e =>
    let rc := (e.refCounter + 255) % 256                    -- --e.refCounter
    let e1 : Element := { e with refCounter := rc }
    let h1 : StatusHandler := { h with m_elements := h.m_elements.set index e1 }
    if rc = 0 then
      match StatusHandler.returnAvailableIndex h1 index with
      | Except.error a => Except.error a
      | Except.ok h2 =>
        let e2 : Element := { data := "", refCounter := rc }  -- e.data.clear()
        Except.ok { h2 with m_elements := h2.m_elements.set index e2 }
    else Except.ok h1

/-- The method `StatusHandler::getData` (both overloads, read access). -/
def StatusHandler.getData (h : StatusHandler) (index : Nat) : Except Abort String :=
  match h.m_elements[index]? with
  | none => Except.error Abort.indexOutOfRange              -- ASSERT(index < size)
  | some e =>                                               -- ASSERT(refCounter > 0)
    if 0 < e.refCounter then Except.ok e.data else Except.error Abort.refCounterZero

/-- The statement `getData(index) += desc` on the reference returned by the
non const `StatusHandler::getData`. -/
def StatusHandler.appendData (h : StatusHandler) (index : Nat) (desc : String) :
    Except Abort StatusHandler :=
  match h.m_elements[index]? with
  | none => Except.error Abort.indexOutOfRange              -- ASSERT(index < size)
  | some e =>
    if 0 < e.refCounter then                                -- ASSERT(refCounter > 0)
      let e1 : Element := { e with data := e.data ++ desc }
      Except.ok { h with m_elements := h.m_elements.set index e1 }
    else Except.error Abort.refCounterZero

/-- The enum `StatusCode`. -/
inductive StatusCode where
  | STC_NO_ERROR
  | STC_INTERNAL_ERROR
  | STC_INVALID_ARGS
  | STC_NOT_POSSIBLE
  deriving DecidableEq, Repr

/-- The numeric value of a `StatusCode`. -/
def StatusCode.toNat : StatusCode → Nat
  | StatusCode.STC_NO_ERROR => 0
  | StatusCode.STC_INTERNAL_ERROR => 1
  | StatusCode.STC_INVALID_ARGS => 2
  | StatusCode.STC_NOT_POSSIBLE => 3

/-- The enum `StatusSeverity`. -/
inductive StatusSeverity where
  | STS_UNDEFINED
  | STS_CRITICAL
  | STS_NORMAL
  | STS_LOW
  deriving DecidableEq, Repr

/-- The numeric value of a `StatusSeverity`. -/
def StatusSeverity.toNat : StatusSeverity → Nat
  | StatusSeverity.STS_UNDEFINED => 0
  | StatusSeverity.STS_CRITICAL => 1
  | StatusSeverity.STS_NORMAL => 2
  | StatusSeverity.STS_LOW => 3

/-- The constant `Status::Data::INV_INDEX = (1 << 15)`. -/
def INV_INDEX : Nat := 32768

/-- The struct `Status::Data`: bit fields of 12, 4 and 16 bits. -/
structure Data where
  code : Nat
  severity : Nat
  index : Nat
  deriving DecidableEq, Repr

/-- The constructor `Data(c, sev, i)`: each value is stored in its bit field. -/
def Data.init (c sev i : Nat) : Data :=
  { code := c % 4096, severity := sev % 16, index := i % 65536 }

/-- The class `Status`: its only member is `data`. -/
structure Status where
  data : Data
  deriving DecidableEq, Repr

/-- The values a `Status` object can hold: every field fits its bit field. -/
def Status.WellFormed (s : Status) : Prop :=
  s.data.code < 4096 ∧ s.data.severity < 16 ∧ s.data.index < 65536

/-- The method `Status::containsDescription`. -/
def Status.containsDescription (s : Status) : Bool :=
  s.data.index != INV_INDEX

/-- The method `Status::code` (the stored value; the cast does not change it). -/
def Status.code (s : Status) : Nat := s.data.code

/-- The method `Status::severity` (the stored value). -/
def Status.severity (s : Status) : Nat := s.data.severity

/-- The conversion `Status::operator bool`. -/
def Status.toBool (s : Status) : Bool :=
  s.data.code == StatusCode.STC_NO_ERROR.toNat

/-- The member `std::string::c_str()` read as a C string: the characters of the
text up to the first terminator (the character with code `0`). -/
def c_str (t : String) : String :=
  String.mk (t.data.takeWhile (fun c => c != Char.ofNat 0))

/-- The method `Status::description`: the C string of the stored text. -/
def Status.description (h : StatusHandler) (s : Status) : Except Abort String :=
  if !s.containsDescription then Except.ok ""
  else
    match h.getData s.data.index with
    | Except.error a => Except.error a
    | Except.ok t => Except.ok (c_str t)

/-- The method `Status::descriptionStd`. -/
def Status.descriptionStd (h : StatusHandler) (s : Status) : Except Abort String :=
  if s.containsDescription then h.getData s.data.index
  else Except.error Abort.noDescription                     -- ASSERT(containsDescription())

/-- The method `Status::appendDescription`: a status without description first
takes the index on top of the free stack, stored in the 16 bit field `index`.
This is the `std::string` overload; the `const char*` overload has the same
body and appends its argument up to the terminator, that is `c_str desc`. -/
def Status.appendDescription (h : StatusHandler) (s : Status) (desc : String) :
    Except Abort (StatusHandler × Status) :=
  if !s.containsDescription then
    match h.getAvailableIndex with
    | Except.error a => Except.error a
    | Except.ok (h1, available) =>
      let s1 : Status := { data := { s.data with index := available % 65536 } }
      match h1.appendData s1.data.index desc with
      | Except.error a => Except.error a
      | Except.ok h2 => Except.ok (h2, s1)
  else
    match h.appendData s.data.index desc with
    | Except.error a => Except.error a
    | Except.ok h2 => Except.ok (h2, s)

/-- The constructor `Status(code, severity)`. -/
def Status.init (code : StatusCode) (severity : StatusSeverity) : Status :=
  { data := Data.init code.toNat severity.toNat INV_INDEX }

/-- The constructor `Status(code, severity, const char* description)`; the null
pointer is `none`, and a C string is read up to its terminator. -/
def Status.initCStr (h : StatusHandler) (code : StatusCode) (severity : StatusSeverity)
    (description : Option String) : Except Abort (StatusHandler × Status) :=
  match description with
  | none => Except.ok (h, Status.init code severity)
  | some d => Status.appendDescription h (Status.init code severity) (c_str d)

/-- The constructor `Status(code, severity, const std::string& description)`. -/
def Status.initStd (h : StatusHandler) (code : StatusCode) (severity : StatusSeverity)
    (description : String) : Except Abort (StatusHandler × Status) :=
  if description ≠ "" then
    Status.appendDescription h (Status.init code severity) description
  else Except.ok (h, Status.init code severity)

/-- The constructor `Status(bool allesGut)`. -/
def Status.initBool (allesGut : Bool) : Status :=
  { data := Data.init
      (if allesGut then StatusCode.STC_NO_ERROR.toNat else StatusCode.STC_INTERNAL_ERROR.toNat)
      (if allesGut then StatusSeverity.STS_UNDEFINED.toNat else StatusSeverity.STS_NORMAL.toNat)
      INV_INDEX }

/-- The destructor `Status::~Status`. -/
def Status.destroy (h : StatusHandler) (s : Status) : Except Abort StatusHandler :=
  if s.containsDescription then h.decrementRef s.data.index else Except.ok h

/-- The copy constructor `Status(const Status& other)`: returns the new pool
and the new object. -/
def Status.copy (h : StatusHandler) (other : Status) : Except Abort (StatusHandler × Status) :=
  let s : Status := { data := Data.init other.data.code other.data.severity other.data.index }
  if s.containsDescription then
    match h.incrementRef s.data.index with
    | Except.error a => Except.error a
    | Except.ok h1 => Except.ok (h1, s)
  else Except.ok (h, s)

/-- The copy assignment `Status::operator=`: the first argument is the object
assigned to; returns the new pool and the new value of that object. -/
def Status.assign (h : StatusHandler) (_self other : Status) :
    Except Abort (StatusHandler × Status) :=
  let s : Status := { data := other.data }
  if s.containsDescription then
    match h.incrementRef s.data.index with
    | Except.error a => Except.error a
    | Except.ok h1 => Except.ok (h1, s)
  else Except.ok (h, s)

/-- The method `Status::clearDescription`. -/
def Status.clearDescription (h : StatusHandler) (s : Status) :
    Except Abort (StatusHandler × Status) :=
  if s.containsDescription then
    match h.decrementRef s.data.index with
    | Except.error a => Except.error a
    | Except.ok h1 => Except.ok (h1, { data := { s.data with index := INV_INDEX % 65536 } })
  else Except.ok (h, { data := { s.data with index := INV_INDEX % 65536 } })

/-- The severity computed by `operator+=` from the severity of `this` and the
one of `other`, stored in the 4 bit field. -/
def mergeSeverity (self other : Nat) : Nat :=
  if other ≠ self then
    (if self = StatusSeverity.STS_UNDEFINED.toNat then other
      else if other = StatusSeverity.STS_UNDEFINED.toNat then self
      else min other self) % 16
  else self

/-- The code computed by `operator+=` from the code of `this` and the one of
`other`. -/
def mergeCode (self other : Nat) : Nat :=
  if other ≠ self then StatusCode.STC_INTERNAL_ERROR.toNat % 4096 else self

/-- The operator `Status::operator+=`: `other` is a const reference and is only
read, so the new pool and the new value of `this` are returned. The text of
`other` is read from the pool before `this` takes a slot, which does not touch
any text. -/
def Status.addAssign (h : StatusHandler) (self other : Status) :
    Except Abort (StatusHandler × Status) :=
  let appended : Except Abort (StatusHandler × Status) :=
    if other.containsDescription then
      match other.descriptionStd h with
      | Except.error a => Except.error a
      | Except.ok desc => self.appendDescription h desc
    else Except.ok (h, self)
  match appended with
  | Except.error a => Except.error a
  | Except.ok (h1, s1) =>
    let s2 : Status :=
      { data := { s1.data with severity := mergeSeverity s1.data.severity other.data.severity } }
    let s3 : Status :=
      { data := { s2.data with code := mergeCode s2.data.code other.data.code } }
    Except.ok (h1, s3)

/-- The statement `s += s`: `other` is the object `this` itself, so the value
returned is the final value of both. -/
def Status.addAssignSelf (h : StatusHandler) (s : Status) :
    Except Abort (StatusHandler × Status) :=
  Status.addAssign h s s

/-! ### Programs over several statuses -/

/-- The pool together with the `Status` objects that are alive. -/
structure World where
  handler : StatusHandler
  live : List Status
  deriving DecidableEq, Repr

/-- The statements of a program that builds, copies and destroys statuses; an
object is named by its position in the list of live objects. -/
inductive Op where
  | construct (code : StatusCode) (severity : StatusSeverity) (description : String)
  | copy (k : Nat)
  | destroy (k : Nat)
  deriving DecidableEq, Repr

/-- One statement: `construct` runs the constructor with a `std::string`,
`copy k` runs the copy constructor on the live object `k` (the new object is
added at the end), `destroy k` runs the destructor of the live object `k`. -/
def World.step (w : World) : Op → Except Abort World
  | Op.construct code severity description =>
    match Status.initStd w.handler code severity description with
    | Except.error a => Except.error a
    | Except.ok (h1, s) => Except.ok { handler := h1, live := w.live ++ [s] }
  | Op.copy k =>
    match w.live[k]? with
    | none => Except.error Abort.notLive
    | some other =>
      match Status.copy w.handler other with
      | Except.error a => Except.error a
      | Except.ok (h1, s) => Except.ok { handler := h1, live := w.live ++ [s] }
  | Op.destroy k =>
    match w.live[k]? with
    | none => Except.error Abort.notLive
    | some s =>
      match Status.destroy w.handler s with
      | Except.error a => Except.error a
      | Except.ok h1 => Except.ok { handler := h1, live := w.live.eraseIdx k }

/-- A sequence of statements, run from left to right. -/
def World.run (w : World) : List Op → Except Abort World
  | [] => Except.ok w
  | op :: ops =>
    match w.step op with
    | Except.error a => Except.error a
    | Except.ok w1 => w1.run ops

/-- The loop `for each text t: { Status tmp(code, severity, t); x = tmp; }`:
the temporary is built, assigned to the variable `x` and destroyed at the end
of the iteration. Returns the final pool and the final value of `x`. -/
def assignLoop (h : StatusHandler) (x : Status) : List String →
    Except Abort (StatusHandler × Status)
  | [] => Except.ok (h, x)
  | t :: ts =>
    match Status.initStd h StatusCode.STC_INTERNAL_ERROR StatusSeverity.STS_NORMAL t with
    | Except.error a => Except.error a
    | Except.ok (h1, tmp) =>
      match Status.assign h1 x tmp with
      | Except.error a => Except.error a
      | Except.ok (h2, x1) =>
        match Status.destroy h2 tmp with
        | Except.error a => Except.error a
        | Except.ok h3 => assignLoop h3 x1 ts

/-- The statement `getAvailableIndex()` run `n` times in a row, with no release
in between: returns the final pool and the indices in the order returned. -/
def allocate : Nat → StatusHandler → Except Abort (StatusHandler × List Nat)
  | 0, h => Except.ok (h, [])
  | n + 1, h =>
    match h.getAvailableIndex with
    | Except.error a => Except.error a
    | Except.ok (h1, i) =>
      match allocate n h1 with
      | Except.error a => Except.error a
      | Except.ok (h2, is) => Except.ok (h2, i :: is)

/-- One descriptive status built per text, in a row, none destroyed: returns
the final pool and the statuses in the order built. -/
def constructAll (code : StatusCode) (severity : StatusSeverity) :
    List String → StatusHandler → Except Abort (StatusHandler × List Status)
  | [], h => Except.ok (h, [])
  | t :: ts, h =>
    match Status.initStd h code severity t with
    | Except.error a => Except.error a
    | Except.ok (h1, s) =>
      match constructAll code severity ts h1 with
      | Except.error a => Except.error a
      | Except.ok (h2, ss) => Except.ok (h2, s :: ss)

/-- The number of slots in use: slots whose index is not on the free stack. -/
def StatusHandler.slotsInUse (h : StatusHandler) : Nat :=
  ((List.range h.m_elements.length).filter (fun i => !h.m_indices.contains i)).length

/-! ### Observers used to state the properties -/

/-- The reference count of slot `i` (`0` when `i` is not a slot). -/
def StatusHandler.refCountAt (h : StatusHandler) (i : Nat) : Nat :=
  match h.m_elements[i]? with
  | some e => e.refCounter
  | none => 0

/-- The text of slot `i` (empty when `i` is not a slot). -/
def StatusHandler.dataAt (h : StatusHandler) (i : Nat) : String :=
  match h.m_elements[i]? with
  | some e => e.data
  | none => ""

/-- The text stored for a status: the text of its slot, read like
`descriptionStd` does, and the empty text for a status without description. -/
def Status.storedText (h : StatusHandler) (s : Status) : Except Abort String :=
  if !s.containsDescription then Except.ok ""
  else h.getData s.data.index

/-- The text does not hold the terminator character. -/
def NulFree (t : String) : Prop := Char.ofNat 0 ∉ t.data

/-- Slot `i` exists and its reference count is at least `1`. -/
def StatusHandler.Referenced (h : StatusHandler) (i : Nat) : Prop :=
  i < h.m_elements.length ∧ 1 ≤ h.refCountAt i

/-- The index on top of the free stack is a slot that is really free
(reference count `0`, cleared text) and that the 16 bit index field of a
`Status` can hold without meeting `INV_INDEX`. -/
def StatusHandler.FreeSlotOnTop (h : StatusHandler) : Prop :=
  ∃ k, h.m_indices.head? = some k ∧ k < INV_INDEX ∧
    h.m_elements[k]? = some { data := "", refCounter := 0 }

/-- The pool states reachable from a freshly constructed pool of capacity `n`
by calls of `getAvailableIndex`, `incrementRef`, `decrementRef` and by writes
through `getData`, each call returning and, for `incrementRef` and
`decrementRef`, made on a referenced slot (their stated precondition). -/
inductive StatusHandler.Reachable (n : Nat) : StatusHandler → Prop where
  | init : StatusHandler.Reachable n (StatusHandler.init n)
  | getAvailableIndex (h h1 : StatusHandler) (k : Nat) :
      StatusHandler.Reachable n h → h.getAvailableIndex = Except.ok (h1, k) →
      StatusHandler.Reachable n h1
  | incrementRef (h h1 : StatusHandler) (i : Nat) :
      StatusHandler.Reachable n h → h.Referenced i → h.incrementRef i = Except.ok h1 →
      StatusHandler.Reachable n h1
  | decrementRef (h h1 : StatusHandler) (i : Nat) :
      StatusHandler.Reachable n h → h.Referenced i → h.decrementRef i = Except.ok h1 →
      StatusHandler.Reachable n h1
  | appendData (h h1 : StatusHandler) (i : Nat) (desc : String) :
      StatusHandler.Reachable n h → h.appendData i desc = Except.ok h1 →
      StatusHandler.Reachable n h1

/-- The pool has `n` slots, no index is twice on the free stack, and every
index on the free stack is a slot with reference count `0` and empty text. -/
def StatusHandler.FreeStackClean (n : Nat) (h : StatusHandler) : Prop :=
  h.m_elements.length = n ∧ h.m_indices.Nodup ∧
    ∀ k ∈ h.m_indices, h.m_elements[k]? = some { data := "", refCounter := 0 }

/-- The pool can serve `self += other`: when `other` has a description its
slot is referenced, and then `self` either has a referenced slot too or can
take the free slot on top of the stack. -/
def CanServe (h : StatusHandler) (self other : Status) : Prop :=
  other.containsDescription = true →
    h.Referenced other.data.index ∧
    (if self.containsDescription then h.Referenced self.data.index else h.FreeSlotOnTop)

/-- The constructor `Status(bool allesGut)` as an operation on the pool: its
body is empty and its initialisers do not name the pool, so the pool comes
back as it was given. -/
def Status.initBoolIn (h : StatusHandler) (allesGut : Bool) : StatusHandler × Status :=
  (h, Status.initBool allesGut)

/-- The statements `a += b`, one for every `b` of a list, from left to right:
returns the final pool and the final value of `a`. -/
def mergeAll (h : StatusHandler) (a : Status) : List Status →
    Except Abort (StatusHandler × Status)
  | [] => Except.ok (h, a)
  | b :: bs =>
    match Status.addAssign h a b with
    | Except.error x => Except.error x
    | Except.ok (h1, a1) => mergeAll h1 a1 bs

/-- The pool invariant in the words of the spec: every slot with reference
count `0` is on the free stack and has empty text, no index is twice on the
free stack, and no index on the free stack is the index of a slot with a
reference count of `1` or more. -/
def StatusHandler.PoolInvariant (h : StatusHandler) : Prop :=
  (∀ i e, h.m_elements[i]? = some e → e.refCounter = 0 → i ∈ h.m_indices ∧ e.data = "") ∧
  h.m_indices.Nodup ∧
  (∀ k ∈ h.m_indices, ¬ 1 ≤ h.refCountAt k)

/-- A pool of capacity one whose slot holds "a" with `refs` references; the
free stack is empty. -/
def poolOne (refs : Nat) : StatusHandler :=
  { m_elements := [{ data := "a", refCounter := refs }], m_indices := [] }

/-! ### Concrete states used to instantiate the properties -/

/-- A pool of two slots, both referenced once: slot `1` holds "X" and slot `0`
holds "Y" (the state after two descriptive statuses were built in a fresh
pool of capacity two). -/
def poolXY : StatusHandler :=
  { m_elements := [{ data := "Y", refCounter := 1 }, { data := "X", refCounter := 1 }],
    m_indices := [] }

/-- A status with code InvalidArgs and severity Normal that holds slot `1`. -/
def statusX : Status := { data := { code := 2, severity := 2, index := 1 } }

/-- A status with code NotPossible and severity Low that holds slot `0`. -/
def statusY : Status := { data := { code := 3, severity := 3, index := 0 } }

/-- The pool after `Status(STC_INTERNAL_ERROR, STS_NORMAL, "Y")` was built in a
fresh pool of capacity `32770`: slot `32769` is taken, index `32768` is on top
of the free stack. -/
def bigPool : StatusHandler :=
  { m_elements :=
      (StatusHandler.init 32770).m_elements.set 32769 { data := "Y", refCounter := 1 },
    m_indices := pushIndices 32769 [] }

/-- The status built by that construction: it holds slot `32769`. -/
def bigStatus : Status := { data := { code := 1, severity := 2, index := 32769 } }

/-- The status built by `Status(STC_INTERNAL_ERROR, STS_CRITICAL, "a")` in a
fresh pool of the default capacity `32`: it holds slot `31`. -/
def status31 : Status := { data := { code := 1, severity := 1, index := 31 } }

/-- The pool of default capacity after that status was built: slot `31` holds
"a" and has the reference count `refs`, the indices `30 ... 0` are free. -/
def pool31 (refs : Nat) : StatusHandler :=
  { m_elements := (StatusHandler.init 32).m_elements.set 31 { data := "a", refCounter := refs },
    m_indices := pushIndices 31 [] }

/-- The text "a", the terminator character, "b": a `std::string` of three
characters. -/
def textWithNul : String := String.mk [Char.ofNat 97, Char.ofNat 0, Char.ofNat 98]

/-- The pool of two described statuses where slot `1` holds `textWithNul`
instead of "X" (the first status was built from that `std::string`). -/
def poolNul : StatusHandler :=
  { m_elements := [{ data := "Y", refCounter := 1 }, { data := textWithNul, refCounter := 1 }],
    m_indices := [] }

end StatusLib

namespace StatusLib

/-! ## Basic facts about the pool operations -/

theorem set_getElem?_same {α : Type} (l : List α) (i : Nat) (e : α)
    (he : l[i]? = some e) : l.set i e = l := by
  apply List.ext_getElem?
  intro j
  by_cases hij : i = j
  · subst hij
    rw [List.getElem?_set, he]
    simp [(List.getElem?_eq_some.mp he).1]
  · rw [List.getElem?_set_ne hij]

theorem lt_length_of_getElem? {α : Type} {l : List α} {i : Nat} {e : α}
    (he : l[i]? = some e) : i < l.length :=
  (List.getElem?_eq_some.mp he).1

theorem getElem?_set_same {α : Type} {l : List α} {i : Nat} {e : α} (e1 : α)
    (he : l[i]? = some e) : (l.set i e1)[i]? = some e1 := by
  simp [List.getElem?_set, lt_length_of_getElem? he]

theorem incrementRef_eq (h : StatusHandler) (i : Nat) (e : Element)
    (he : h.m_elements[i]? = some e) :
    h.incrementRef i = Except.ok
      { h with m_elements :=
          h.m_elements.set i { data := e.data, refCounter := (e.refCounter + 1) % 256 } } := by
  simp [StatusHandler.incrementRef, he]

theorem getData_eq (h : StatusHandler) (i : Nat) (e : Element)
    (he : h.m_elements[i]? = some e) (hr : 0 < e.refCounter) :
    h.getData i = Except.ok e.data := by
  simp [StatusHandler.getData, he, hr]

theorem appendData_eq (h : StatusHandler) (i : Nat) (e : Element) (d : String)
    (he : h.m_elements[i]? = some e) (hr : 0 < e.refCounter) :
    h.appendData i d = Except.ok
      { h with m_elements :=
          h.m_elements.set i { data := e.data ++ d, refCounter := e.refCounter } } := by
  simp [StatusHandler.appendData, he, hr]

theorem referenced_iff (h : StatusHandler) (i : Nat) :
    h.Referenced i ↔ ∃ e, h.m_elements[i]? = some e ∧ 0 < e.refCounter := by
  unfold StatusHandler.Referenced StatusHandler.refCountAt
  constructor
  · rintro ⟨hlt, hr⟩
    refine ⟨h.m_elements[i], by simp [hlt], ?_⟩
    simpa [List.getElem?_eq_getElem hlt] using hr
  · rintro ⟨e, he, hr⟩
    refine ⟨lt_length_of_getElem? he, ?_⟩
    simpa [he] using hr

/-- A status that has a description appends to the slot it holds. -/
theorem appendDescription_held (h : StatusHandler) (s : Status) (d : String) (e : Element)
    (hs : s.containsDescription = true) (he : h.m_elements[s.data.index]? = some e)
    (hr : 0 < e.refCounter) :
    s.appendDescription h d = Except.ok
      ({ h with m_elements :=
          h.m_elements.set s.data.index { data := e.data ++ d, refCounter := e.refCounter } },
        s) := by
  simp [Status.appendDescription, hs, appendData_eq h _ e d he hr]

/-- A status without description takes the index on top of the free stack. -/
theorem appendDescription_fresh (h : StatusHandler) (s : Status) (d : String)
    (k : Nat) (rest : List Nat) (e : Element)
    (hs : s.containsDescription = false) (hst : h.m_indices = k :: rest)
    (hk : k < 65536) (he : h.m_elements[k]? = some e) (hr : e.refCounter < 255) :
    s.appendDescription h d = Except.ok
      ({ m_elements :=
            h.m_elements.set k { data := e.data ++ d, refCounter := (e.refCounter + 1) % 256 },
          m_indices := rest },
        { data := { s.data with index := k } }) := by
  have hk' : k % 65536 = k := Nat.mod_eq_of_lt hk
  have hpos : 0 < (e.refCounter + 1) % 256 := by omega
  have h1 : (StatusHandler.mk h.m_elements rest).incrementRef k = _ :=
    incrementRef_eq _ k e he
  have h2 := appendData_eq
    { m_elements := h.m_elements.set k
        { data := e.data, refCounter := (e.refCounter + 1) % 256 }, m_indices := rest }
    k _ d (getElem?_set_same _ he) hpos
  simp only [Status.appendDescription, hs, StatusHandler.getAvailableIndex, hst, h1, hk'] at h2 ⊢
  simp [h2, List.set_set]

/-- The method `appendDescription` changes neither the code nor the severity. -/
theorem appendDescription_fields (h h1 : StatusHandler) (s s1 : Status) (d : String)
    (hok : s.appendDescription h d = Except.ok (h1, s1)) :
    s1.data.code = s.data.code ∧ s1.data.severity = s.data.severity := by
  unfold Status.appendDescription at hok
  by_cases hs : s.containsDescription = true
  · simp only [hs, Bool.not_true, Bool.false_eq_true, if_false] at hok
    cases hx : h.appendData s.data.index d with
    | error x => simp [hx] at hok
    | ok h2 =>
      simp only [hx, Except.ok.injEq, Prod.mk.injEq] at hok
      rw [← hok.2]
      exact ⟨rfl, rfl⟩
  · simp only [hs, Bool.not_false, if_true] at hok
    cases hg : h.getAvailableIndex with
    | error x => simp [hg] at hok
    | ok r =>
      obtain ⟨h2, k⟩ := r
      simp only [hg] at hok
      cases hx : h2.appendData (k % 65536) d with
      | error x => simp [hx] at hok
      | ok h3 =>
        simp only [hx, Except.ok.injEq, Prod.mk.injEq] at hok
        rw [← hok.2]
        exact ⟨rfl, rfl⟩

/-- Whenever `self += other` returns, the new severity and code of `self` are
the ones computed by `mergeSeverity` and `mergeCode` from the old fields. -/
theorem addAssign_fields (h h1 : StatusHandler) (a b a1 : Status)
    (hok : Status.addAssign h a b = Except.ok (h1, a1)) :
    a1.data.severity = mergeSeverity a.data.severity b.data.severity ∧
    a1.data.code = mergeCode a.data.code b.data.code := by
  unfold Status.addAssign at hok
  by_cases hb : b.containsDescription = true
  · simp only [hb, if_true] at hok
    cases hd : b.descriptionStd h with
    | error x => simp [hd] at hok
    | ok desc =>
      cases hap : a.appendDescription h desc with
      | error x => simp [hd, hap] at hok
      | ok r =>
        obtain ⟨h2, s2⟩ := r
        have hf := appendDescription_fields h h2 a s2 desc hap
        simp only [hd, hap] at hok
        cases hok
        simp [hf.1, hf.2]
  · simp only [hb] at hok
    cases hok
    exact ⟨rfl, rfl⟩

/-- A status without description merges without touching the pool. -/
theorem addAssign_no_description (h : StatusHandler) (a b : Status)
    (hb : b.containsDescription = false) :
    Status.addAssign h a b = Except.ok (h,
      { data := { code := mergeCode a.data.code b.data.code,
                  severity := mergeSeverity a.data.severity b.data.severity,
                  index := a.data.index } }) := by
  simp [Status.addAssign, hb]

/-- The merge returns whenever the pool can serve it. -/
theorem addAssign_returns (h : StatusHandler) (a b : Status) (hs : CanServe h a b) :
    ∃ h1 a1, Status.addAssign h a b = Except.ok (h1, a1) := by
  by_cases hb : b.containsDescription = true
  · obtain ⟨hrb, hra⟩ := hs hb
    obtain ⟨eb, heb, hrb⟩ := (referenced_iff h _).mp hrb
    have hd : b.descriptionStd h = Except.ok eb.data := by
      simp [Status.descriptionStd, hb, getData_eq h _ eb heb hrb]
    by_cases ha : a.containsDescription = true
    · rw [if_pos ha] at hra
      obtain ⟨ea, hea, hra⟩ := (referenced_iff h _).mp hra
      have hap := appendDescription_held h a eb.data ea ha hea hra
      simp only [Status.addAssign, hb, hd, hap, if_true]
      exact ⟨_, _, rfl⟩
    · rw [if_neg ha] at hra
      obtain ⟨k, hk, hlt, hek⟩ := hra
      have ha' : a.containsDescription = false := by simpa using ha
      obtain ⟨rest, hst⟩ : ∃ rest, h.m_indices = k :: rest := by
        cases hm : h.m_indices with
        | nil => simp [hm] at hk
        | cons x rest =>
          simp only [hm, List.head?_cons, Option.some.injEq] at hk
          exact ⟨rest, by rw [hk]⟩
      have hap := appendDescription_fresh h a eb.data k rest _ ha' hst
        (by unfold INV_INDEX at hlt; omega) hek (by decide)
      simp only [Status.addAssign, hb, hd, hap, if_true]
      exact ⟨_, _, rfl⟩
  · have hb' : b.containsDescription = false := by simpa using hb
    exact ⟨_, _, addAssign_no_description h a b hb'⟩

/-! ## C1: merge severity rule -/

/-- C1. Merge severity rule. After `a += b` the severity of `a` is its old
severity when both severities are equal, the severity of `b` when the old
severity of `a` is Undefined (0), the old severity of `a` when the severity of
`b` is Undefined (0), and otherwise the numerically smaller of the two; the
merge returns whenever the pool can serve it; Undefined += Critical gives
Critical, Normal += Low gives Normal and Critical += Undefined gives Critical;
`b` is only read, and when `b` is the object `a` itself (`a += a`) the severity
stays what it was. -/
theorem merge_severity_rule (h : StatusHandler) (a b : Status)
    (ha : a.WellFormed) (hb : b.WellFormed) :
    (∀ h1 a1, Status.addAssign h a b = Except.ok (h1, a1) →
      (a.severity = b.severity → a1.severity = a.severity) ∧
      (a.severity = 0 → a1.severity = b.severity) ∧
      (b.severity = 0 → a1.severity = a.severity) ∧
      (a.severity ≠ b.severity → a.severity ≠ 0 → b.severity ≠ 0 →
        a1.severity = min a.severity b.severity)) ∧
    (CanServe h a b → ∃ h1 a1, Status.addAssign h a b = Except.ok (h1, a1)) ∧
    (∀ h1 a1, Status.addAssignSelf h a = Except.ok (h1, a1) → a1.severity = a.severity) ∧
    (∀ c1 c2 : StatusCode, ∃ a1,
      Status.addAssign h (Status.init c1 StatusSeverity.STS_UNDEFINED)
        (Status.init c2 StatusSeverity.STS_CRITICAL) = Except.ok (h, a1) ∧
      a1.severity = StatusSeverity.STS_CRITICAL.toNat) ∧
    (∀ c1 c2 : StatusCode, ∃ a1,
      Status.addAssign h (Status.init c1 StatusSeverity.STS_NORMAL)
        (Status.init c2 StatusSeverity.STS_LOW) = Except.ok (h, a1) ∧
      a1.severity = StatusSeverity.STS_NORMAL.toNat) ∧
    (∀ c1 c2 : StatusCode, ∃ a1,
      Status.addAssign h (Status.init c1 StatusSeverity.STS_CRITICAL)
        (Status.init c2 StatusSeverity.STS_UNDEFINED) = Except.ok (h, a1) ∧
      a1.severity = StatusSeverity.STS_CRITICAL.toNat) := by
  obtain ⟨-, hsa, -⟩ := ha
  obtain ⟨-, hsb, -⟩ := hb
  refine ⟨?_, addAssign_returns h a b, ?_, ?_, ?_, ?_⟩
  · intro h1 a1 hok
    have hsev := (addAssign_fields h h1 a b a1 hok).1
    simp only [Status.severity, hsev, mergeSeverity, StatusSeverity.toNat]
    refine ⟨?_, ?_, ?_, ?_⟩
    · intro he
      split_ifs <;> omega
    · intro h0
      split_ifs <;> omega
    · intro h0
      split_ifs <;> omega
    · intro hne ha0 hb0
      split_ifs <;> omega
  · intro h1 a1 hok
    have hsev := (addAssign_fields h h1 a a a1 hok).1
    unfold Status.severity
    rw [hsev]
    simp [mergeSeverity]
  · intro c1 c2
    refine ⟨_, addAssign_no_description h _ _ (by rfl), ?_⟩
    cases c1 <;> cases c2 <;> rfl
  · intro c1 c2
    refine ⟨_, addAssign_no_description h _ _ (by rfl), ?_⟩
    cases c1 <;> cases c2 <;> rfl
  · intro c1 c2
    refine ⟨_, addAssign_no_description h _ _ (by rfl), ?_⟩
    cases c1 <;> cases c2 <;> rfl

/-! ## C2: merge code rule -/

/-- C2. Merge code rule. After `a += b` the code of `a` is InternalError when
the old code of `a` differs from the code of `b`, and the old code of `a` when
the two codes are equal; the merge returns whenever the pool can serve it; `b`
is only read, and when `b` is the object `a` itself the code stays what it
was. -/
theorem merge_code_rule (h : StatusHandler) (a b : Status) :
    (∀ h1 a1, Status.addAssign h a b = Except.ok (h1, a1) →
      (a.code ≠ b.code → a1.code = StatusCode.STC_INTERNAL_ERROR.toNat) ∧
      (a.code = b.code → a1.code = a.code)) ∧
    (CanServe h a b → ∃ h1 a1, Status.addAssign h a b = Except.ok (h1, a1)) ∧
    (∀ h1 a1, Status.addAssignSelf h a = Except.ok (h1, a1) → a1.code = a.code) := by
  refine ⟨?_, addAssign_returns h a b, ?_⟩
  · intro h1 a1 hok
    have hc := (addAssign_fields h h1 a b a1 hok).2
    unfold Status.code
    rw [hc]
    unfold mergeCode
    constructor
    · intro hne
      have he : ¬ b.data.code = a.data.code := fun h' => hne h'.symm
      simp [he, StatusCode.toNat]
    · intro he
      simp [he]
  · intro h1 a1 hok
    have hc := (addAssign_fields h h1 a a a1 hok).2
    unfold Status.code
    rw [hc]
    simp [mergeCode]

theorem canServe_poolXY : CanServe poolXY statusX statusY := by
  intro _
  refine ⟨⟨by decide, by decide⟩, ?_⟩
  rw [if_pos (by decide)]
  exact ⟨by decide, by decide⟩

/-- Witness of C1: Normal += Low on two described statuses gives Normal. -/
theorem merge_severity_rule_witness :
    statusX.WellFormed ∧ statusY.WellFormed ∧ CanServe poolXY statusX statusY ∧
    ∃ h1 a1, Status.addAssign poolXY statusX statusY = Except.ok (h1, a1) ∧
      a1.severity = 2 := by
  have wx : statusX.WellFormed := by unfold Status.WellFormed; decide
  have wy : statusY.WellFormed := by unfold Status.WellFormed; decide
  have hthm := merge_severity_rule poolXY statusX statusY wx wy
  obtain ⟨h1, a1, hok⟩ := hthm.2.1 canServe_poolXY
  refine ⟨wx, wy, canServe_poolXY, h1, a1, hok, ?_⟩
  have hmin := (hthm.1 h1 a1 hok).2.2.2 (by decide) (by decide) (by decide)
  rw [hmin]
  decide

/-- Witness of C2: InvalidArgs += NotPossible gives InternalError. -/
theorem merge_code_rule_witness :
    CanServe poolXY statusX statusY ∧
    ∃ h1 a1, Status.addAssign poolXY statusX statusY = Except.ok (h1, a1) ∧
      a1.code = 1 := by
  have hthm := merge_code_rule poolXY statusX statusY
  obtain ⟨h1, a1, hok⟩ := hthm.2.1 canServe_poolXY
  refine ⟨canServe_poolXY, h1, a1, hok, ?_⟩
  have hc := (hthm.1 h1 a1 hok).1 (by decide)
  rw [hc]
  rfl

/-! ## C3: merge description rule -/

theorem pushIndices_succ (n : Nat) (st : List Nat) :
    pushIndices (n + 1) st = n :: pushIndices n st := rfl

theorem init_getElem? (n i : Nat) (hi : i < n) :
    (StatusHandler.init n).m_elements[i]? = some { data := "", refCounter := 0 } := by
  simp [StatusHandler.init, List.getElem?_replicate, hi]

theorem getData_ok (h : StatusHandler) (i : Nat) (t : String)
    (hok : h.getData i = Except.ok t) :
    ∃ e, h.m_elements[i]? = some e ∧ 0 < e.refCounter ∧ e.data = t := by
  unfold StatusHandler.getData at hok
  cases he : h.m_elements[i]? with
  | none => simp [he] at hok
  | some e =>
    simp only [he] at hok
    by_cases hr : 0 < e.refCounter
    · simp only [hr, if_true, Except.ok.injEq] at hok
      exact ⟨e, rfl, hr, hok⟩
    · simp [hr] at hok

/-- Reading the description of a status whose slot was just written. -/
theorem storedText_set (l : List Element) (st : List Nat) (s : Status) (e e1 : Element)
    (hs : s.containsDescription = true) (he : l[s.data.index]? = some e)
    (hr : 0 < e1.refCounter) :
    s.storedText { m_elements := l.set s.data.index e1, m_indices := st } =
      Except.ok e1.data := by
  simp [Status.storedText, hs, StatusHandler.getData, getElem?_set_same e1 he, hr]

theorem c_str_of_nulFree (t : String) (ht : NulFree t) : c_str t = t := by
  unfold c_str
  have htake : t.data.takeWhile (fun c => c != Char.ofNat 0) = t.data := by
    rw [List.takeWhile_eq_self_iff]
    intro c hc
    simp only [bne_iff_ne, ne_eq]
    rintro rfl
    exact ht hc
  rw [htake]

theorem nulFree_append (t u : String) (ht : NulFree t) (hu : NulFree u) :
    NulFree (t ++ u) := by
  unfold NulFree at *
  rw [String.data_append, List.mem_append]
  tauto

/-- The method `description` reads the C string of the stored text. -/
theorem description_of_storedText (h : StatusHandler) (s : Status) (X : String)
    (hX : s.storedText h = Except.ok X) : s.description h = Except.ok (c_str X) := by
  unfold Status.storedText at hX
  unfold Status.description
  by_cases hs : s.containsDescription = true
  · simp only [hs, Bool.not_true, Bool.false_eq_true, if_false] at hX ⊢
    rw [hX]
  · simp only [hs, Bool.not_false, if_true, Except.ok.injEq] at hX ⊢
    rw [← hX]
    rfl

/-- The method `description` reads the whole stored text when it holds no
terminator. -/
theorem description_of_nulFree (h : StatusHandler) (s : Status) (X : String)
    (hX : s.storedText h = Except.ok X) (hn : NulFree X) :
    s.description h = Except.ok X := by
  rw [description_of_storedText h s X hX, c_str_of_nulFree X hn]

/-- The method `descriptionStd` reads the stored text of a status that has a
description. -/
theorem descriptionStd_of_storedText (h : StatusHandler) (s : Status) (X : String)
    (hs : s.containsDescription = true) (hX : s.storedText h = Except.ok X) :
    s.descriptionStd h = Except.ok X := by
  simpa [Status.storedText, Status.descriptionStd, hs] using hX

theorem storedText_of_descriptionStd (h : StatusHandler) (s : Status) (X : String)
    (hX : s.descriptionStd h = Except.ok X) :
    s.containsDescription = true ∧ s.storedText h = Except.ok X := by
  have hs : s.containsDescription = true := by
    by_contra hs
    simp [Status.descriptionStd, hs] at hX
  exact ⟨hs, by simpa [Status.storedText, Status.descriptionStd, hs] using hX⟩

theorem contains_of_index (s s1 : Status) (hi : s1.data.index = s.data.index)
    (hs : s.containsDescription = true) : s1.containsDescription = true := by
  simpa [Status.containsDescription, hi] using hs

/-- The stored text after a merge: when `b` has the text `Y`, `a` has the stored
text `X` and, in case `a` has no description, a free slot below `INV_INDEX` is
on top of the free stack, then `a += b` returns and `a` stores `X ++ Y`. -/
theorem merge_storedText (h : StatusHandler) (a b : Status) :
    (∀ X Y : String, a.storedText h = Except.ok X → b.descriptionStd h = Except.ok Y →
      (a.containsDescription = false → h.FreeSlotOnTop) →
      ∃ h1 a1, Status.addAssign h a b = Except.ok (h1, a1) ∧
        a1.containsDescription = true ∧ a1.storedText h1 = Except.ok (X ++ Y)) ∧
    (b.containsDescription = false →
      ∃ a1, Status.addAssign h a b = Except.ok (h, a1) ∧
        a1.data.index = a.data.index ∧ a1.storedText h = a.storedText h) := by
  constructor
  · intro X Y hX hY hfree
    have hb : b.containsDescription = true := by
      by_contra hb
      simp [Status.descriptionStd, hb] at hY
    by_cases ha : a.containsDescription = true
    · have hXg : h.getData a.data.index = Except.ok X := by
        simpa [Status.storedText, ha] using hX
      obtain ⟨ea, hea, hra, hda⟩ := getData_ok h _ X hXg
      subst hda
      have hap := appendDescription_held h a Y ea ha hea hra
      simp only [Status.addAssign, hb, hY, hap, if_true]
      refine ⟨_, _, rfl, ha, ?_⟩
      have hd := storedText_set h.m_elements h.m_indices a ea
        { data := ea.data ++ Y, refCounter := ea.refCounter } ha hea hra
      simpa [Status.storedText, Status.containsDescription] using hd
    · have ha' : a.containsDescription = false := by simpa using ha
      have hX' : X = "" := by
        simp [Status.storedText, ha'] at hX
        exact hX.symm
      obtain ⟨k, hk, hlt, hek⟩ := hfree ha'
      obtain ⟨rest, hst⟩ : ∃ rest, h.m_indices = k :: rest := by
        cases hm : h.m_indices with
        | nil => simp [hm] at hk
        | cons x rest =>
          simp only [hm, List.head?_cons, Option.some.injEq] at hk
          exact ⟨rest, by rw [hk]⟩
      have hap := appendDescription_fresh h a Y k rest _ ha' hst
        (by unfold INV_INDEX at hlt; omega) hek (by decide)
      simp only [Status.addAssign, hb, hY, hap, if_true]
      have hc : Status.containsDescription
          { data := { code := a.data.code, severity := a.data.severity, index := k } } = true := by
        simp [Status.containsDescription]
        omega
      refine ⟨_, _, rfl, hc, ?_⟩
      have hd := storedText_set h.m_elements rest
        { data := { code := a.data.code, severity := a.data.severity, index := k } }
        _ { data := "" ++ Y, refCounter := 1 } hc hek Nat.zero_lt_one
      rw [hX']
      simpa [Status.storedText, Status.containsDescription] using hd
  · intro hb
    refine ⟨_, addAssign_no_description h a b hb, rfl, ?_⟩
    simp [Status.storedText, Status.containsDescription]

/-- C3 (as amended). Merge description rule. When `b` has the text `Y`, `a`
has the stored text `X` (the empty text when it has no description) and, in
case `a` has none, the index on top of the free stack is a free slot
(reference count 0, empty text) below `INV_INDEX = 2 ^ 15`, then `a += b`
returns, `a` has a description afterwards, its text is `X ++ Y` and
`description()` reads `X ++ Y` up to the first terminator. When neither `X`
nor `Y` holds a terminator, `X` and `Y` are what `description()` read on `a`
and `b` before the merge, and `description()` reads `X ++ Y` on `a`
afterwards. When `b` has no description the merge returns with the pool, the
slot of `a` and the description of `a` unchanged. -/
theorem merge_description_rule (h : StatusHandler) (a b : Status) :
    (∀ X Y : String, a.storedText h = Except.ok X → b.descriptionStd h = Except.ok Y →
      (a.containsDescription = false → h.FreeSlotOnTop) →
      ∃ h1 a1, Status.addAssign h a b = Except.ok (h1, a1) ∧
        a1.containsDescription = true ∧ a1.descriptionStd h1 = Except.ok (X ++ Y) ∧
        a1.description h1 = Except.ok (c_str (X ++ Y)) ∧
        (NulFree X → NulFree Y →
          a.description h = Except.ok X ∧ b.description h = Except.ok Y ∧
          a1.description h1 = Except.ok (X ++ Y))) ∧
    (b.containsDescription = false →
      ∃ a1, Status.addAssign h a b = Except.ok (h, a1) ∧
        a1.data.index = a.data.index ∧ a1.storedText h = a.storedText h ∧
        a1.description h = a.description h) := by
  constructor
  · intro X Y hX hY hfree
    obtain ⟨h1, a1, hok, hc, hst⟩ := (merge_storedText h a b).1 X Y
      (by simpa [Status.storedText] using hX) hY hfree
    refine ⟨h1, a1, hok, hc, descriptionStd_of_storedText h1 a1 _ hc hst,
      description_of_storedText h1 a1 _ hst, ?_⟩
    intro hnX hnY
    exact ⟨description_of_nulFree h a X hX hnX,
      description_of_nulFree h b Y (storedText_of_descriptionStd h b Y hY).2 hnY,
      description_of_nulFree h1 a1 _ hst (nulFree_append X Y hnX hnY)⟩
  · intro hb
    refine ⟨_, addAssign_no_description h a b hb, rfl, ?_, ?_⟩
    · simp [Status.storedText, Status.containsDescription]
    · simp [Status.description, Status.containsDescription]

/-- Witness of C3: "X" merged with "Y" reads "XY". -/
theorem merge_description_rule_witness :
    statusX.storedText poolXY = Except.ok "X" ∧
    statusY.descriptionStd poolXY = Except.ok "Y" ∧ NulFree "X" ∧ NulFree "Y" ∧
    ∃ h1 a1, Status.addAssign poolXY statusX statusY = Except.ok (h1, a1) ∧
      a1.containsDescription = true ∧ a1.description h1 = Except.ok ("X" ++ "Y") := by
  have hx : NulFree "X" := by unfold NulFree; decide
  have hy : NulFree "Y" := by unfold NulFree; decide
  obtain ⟨h1, a1, hok, hc, -, -, hd⟩ :=
    (merge_description_rule poolXY statusX statusY).1 "X" "Y" rfl rfl
      (fun hn => absurd hn (by decide))
  exact ⟨rfl, rfl, hx, hy, h1, a1, hok, hc, (hd hx hy).2.2⟩

theorem status_init_data (c : StatusCode) (sev : StatusSeverity) :
    Status.init c sev = { data := { code := c.toNat, severity := sev.toNat, index := INV_INDEX } } := by
  cases c <;> cases sev <;> rfl

/-- Building a status with a non empty text when a free slot is on top of the
free stack: the slot is taken and holds the text with reference count `1`. -/
theorem initStd_fresh (h : StatusHandler) (c : StatusCode) (sev : StatusSeverity)
    (t : String) (k : Nat) (rest : List Nat) (ht : t ≠ "")
    (hst : h.m_indices = k :: rest) (hk : k < 65536)
    (hek : h.m_elements[k]? = some { data := "", refCounter := 0 }) :
    Status.initStd h c sev t = Except.ok
      ({ m_elements := h.m_elements.set k { data := t, refCounter := 1 }, m_indices := rest },
        { data := { code := c.toNat, severity := sev.toNat, index := k } }) := by
  have hap := appendDescription_fresh h (Status.init c sev) t k rest
    { data := "", refCounter := 0 } (by rw [status_init_data]; rfl) hst hk hek (by decide)
  rw [Status.initStd, if_pos ht, hap, status_init_data]
  simp

/-- The merge of a described `other` into a `self` without description, when
a free slot is on top of the free stack. -/
theorem addAssign_fresh (h : StatusHandler) (a b : Status) (Y : String) (k : Nat)
    (rest : List Nat) (ha : a.containsDescription = false)
    (hY : b.descriptionStd h = Except.ok Y) (hst : h.m_indices = k :: rest)
    (hk : k < 65536) (hek : h.m_elements[k]? = some { data := "", refCounter := 0 }) :
    Status.addAssign h a b = Except.ok
      ({ m_elements := h.m_elements.set k { data := Y, refCounter := 1 }, m_indices := rest },
        { data := { code := mergeCode a.data.code b.data.code,
                    severity := mergeSeverity a.data.severity b.data.severity,
                    index := k } }) := by
  have hb : b.containsDescription = true := by
    by_contra hb
    simp [Status.descriptionStd, hb] at hY
  have hap := appendDescription_fresh h a Y k rest _ ha hst hk hek (by decide)
  simp [Status.addAssign, hb, hY, hap]

theorem bigPool_indices : bigPool.m_indices = 32768 :: pushIndices 32768 [] :=
  pushIndices_succ 32768 []

theorem bigPool_top : bigPool.m_elements[32768]? = some { data := "", refCounter := 0 } := by
  unfold bigPool
  simp only []
  rw [List.getElem?_set_ne (by decide)]
  exact init_getElem? 32770 32768 (by decide)

theorem bigPool_held : bigPool.m_elements[32769]? = some { data := "Y", refCounter := 1 } := by
  unfold bigPool
  simp only []
  exact getElem?_set_same _ (init_getElem? 32770 32769 (by decide))

theorem bigPool_built :
    Status.initStd (StatusHandler.init 32770) StatusCode.STC_INTERNAL_ERROR
      StatusSeverity.STS_NORMAL "Y" = Except.ok (bigPool, bigStatus) :=
  initStd_fresh (StatusHandler.init 32770) StatusCode.STC_INTERNAL_ERROR
    StatusSeverity.STS_NORMAL "Y" 32769 (pushIndices 32769 []) (by decide)
    (pushIndices_succ 32769 []) (by decide) (init_getElem? 32770 32769 (by decide))

/-- Counterexample to C3 as stated. In a fresh pool of capacity `32770` the
status `b = Status(STC_INTERNAL_ERROR, STS_NORMAL, "Y")` is built (it takes
slot `32769`), so `b` has the description "Y" and index `32768` is a free slot
on top of the free stack; `a = Status(STC_NO_ERROR, STS_UNDEFINED)` has no
description. Then `a += b` returns, but `a` has no description afterwards and
reads the empty string, not "Y": the index `32768` it took is `INV_INDEX`.
Also, in the pool of two slots where `a` holds the text "a", terminator, "b"
and `b` holds "Y", `description()` reads "a" on `a` and "Y" on `b`; `a += b`
returns and `description()` still reads "a" on `a`, not "aY". -/
theorem merge_description_counterexample :
    (Status.initStd (StatusHandler.init 32770) StatusCode.STC_INTERNAL_ERROR
      StatusSeverity.STS_NORMAL "Y" = Except.ok (bigPool, bigStatus) ∧
    bigStatus.descriptionStd bigPool = Except.ok "Y" ∧
    (Status.init StatusCode.STC_NO_ERROR StatusSeverity.STS_UNDEFINED).containsDescription
      = false ∧
    bigPool.m_indices.head? = some 32768 ∧
    bigPool.m_elements[32768]? = some { data := "", refCounter := 0 } ∧
    ∃ h1 a1,
      Status.addAssign bigPool
        (Status.init StatusCode.STC_NO_ERROR StatusSeverity.STS_UNDEFINED) bigStatus
        = Except.ok (h1, a1) ∧
      a1.containsDescription = false ∧ a1.description h1 = Except.ok "") ∧
    (statusX.description poolNul = Except.ok "a" ∧
      statusY.description poolNul = Except.ok "Y" ∧
      (∃ h1 a1, Status.addAssign poolNul statusX statusY = Except.ok (h1, a1) ∧
        a1.description h1 = Except.ok "a") ∧
      ("a" : String) ≠ "a" ++ "Y") := by
  have hY : bigStatus.descriptionStd bigPool = Except.ok "Y" := by
    have hc : bigStatus.containsDescription = true := by decide
    rw [Status.descriptionStd, if_pos hc]
    exact getData_eq bigPool 32769 _ bigPool_held (by decide)
  have hadd := addAssign_fresh bigPool
    (Status.init StatusCode.STC_NO_ERROR StatusSeverity.STS_UNDEFINED) bigStatus "Y" 32768
    (pushIndices 32768 []) rfl hY bigPool_indices (by decide) bigPool_top
  refine ⟨?_, rfl, rfl, ⟨_, _, rfl, rfl⟩, by decide⟩
  refine ⟨bigPool_built, hY, rfl, ?_, bigPool_top, _, _, hadd, rfl, ?_⟩
  · rw [bigPool_indices]
    rfl
  · rw [Status.description]
    exact if_pos rfl

/-! ## Copying and destroying -/

theorem decrementRef_eq_pos (h : StatusHandler) (i : Nat) (e : Element)
    (he : h.m_elements[i]? = some e) (hr : (e.refCounter + 255) % 256 ≠ 0) :
    h.decrementRef i = Except.ok
      { m_elements :=
          h.m_elements.set i { data := e.data, refCounter := (e.refCounter + 255) % 256 },
        m_indices := h.m_indices } := by
  simp [StatusHandler.decrementRef, he, hr]

theorem decrementRef_eq_zero (h : StatusHandler) (i : Nat) (e : Element)
    (he : h.m_elements[i]? = some e) (hr : (e.refCounter + 255) % 256 = 0) :
    h.decrementRef i = Except.ok
      { m_elements := h.m_elements.set i { data := "", refCounter := 0 },
        m_indices := i :: h.m_indices } := by
  simp [StatusHandler.decrementRef, he, hr, StatusHandler.returnAvailableIndex,
    getElem?_set_same _ he, List.set_set]

theorem data_init_eq (s : Status) (hw : s.WellFormed) :
    Data.init s.data.code s.data.severity s.data.index = s.data := by
  obtain ⟨h1, h2, h3⟩ := hw
  simp [Data.init, Nat.mod_eq_of_lt h1, Nat.mod_eq_of_lt h2, Nat.mod_eq_of_lt h3]

/-- Copying a status that holds a slot increments that slot modulo `256` and
yields an equal status. -/
theorem copy_held (h : StatusHandler) (s : Status) (e : Element) (hw : s.WellFormed)
    (hs : s.containsDescription = true) (he : h.m_elements[s.data.index]? = some e) :
    Status.copy h s = Except.ok
      ({ m_elements :=
            h.m_elements.set s.data.index
              { data := e.data, refCounter := (e.refCounter + 1) % 256 },
          m_indices := h.m_indices }, s) := by
  unfold Status.copy
  rw [data_init_eq s hw]
  simp [hs, incrementRef_eq h _ e he]

theorem destroy_pos (h : StatusHandler) (s : Status) (e : Element)
    (hs : s.containsDescription = true) (he : h.m_elements[s.data.index]? = some e)
    (hr : (e.refCounter + 255) % 256 ≠ 0) :
    Status.destroy h s = Except.ok
      { m_elements :=
          h.m_elements.set s.data.index
            { data := e.data, refCounter := (e.refCounter + 255) % 256 },
        m_indices := h.m_indices } := by
  simp [Status.destroy, hs, decrementRef_eq_pos h _ e he hr]

theorem destroy_zero (h : StatusHandler) (s : Status) (e : Element)
    (hs : s.containsDescription = true) (he : h.m_elements[s.data.index]? = some e)
    (hr : (e.refCounter + 255) % 256 = 0) :
    Status.destroy h s = Except.ok
      { m_elements := h.m_elements.set s.data.index { data := "", refCounter := 0 },
        m_indices := s.data.index :: h.m_indices } := by
  simp [Status.destroy, hs, decrementRef_eq_zero h _ e he hr]

theorem run_append (w : World) (ops1 ops2 : List Op) :
    w.run (ops1 ++ ops2) =
      match w.run ops1 with
      | Except.error a => Except.error a
      | Except.ok w1 => w1.run ops2 := by
  induction ops1 generalizing w with
  | nil => rfl
  | cons op ops ih =>
    simp only [List.cons_append, World.run]
    cases hstep : w.step op with
    | error a => rfl
    | ok w1 => exact ih w1

/-- Running `k` copies of the first live object, which holds a slot: the
reference count of the slot grows by `k` modulo `256`. -/
theorem run_copies (k : Nat) (l : List Element) (st : List Nat) (live : List Status)
    (s : Status) (t : String) (r : Nat) (hw : s.WellFormed)
    (hs : s.containsDescription = true) (hlive : live[0]? = some s)
    (he : l[s.data.index]? = some { data := t, refCounter := r }) (hr : r < 256) :
    World.run { handler := { m_elements := l, m_indices := st }, live := live }
        (List.replicate k (Op.copy 0)) =
      Except.ok
        { handler :=
            { m_elements :=
                l.set s.data.index { data := t, refCounter := (r + k) % 256 },
              m_indices := st },
          live := live ++ List.replicate k s } := by
  induction k generalizing l live r with
  | zero =>
    have hmod : (r + 0) % 256 = r := by omega
    rw [hmod, set_getElem?_same l _ _ he]
    simp [World.run]
  | succ k ih =>
    have hcopy := copy_held { m_elements := l, m_indices := st } s _ hw hs he
    have hlive' : (live ++ [s])[0]? = some s := by
      cases live with
      | nil => simp at hlive
      | cons x xs => simpa using hlive
    have hstep : World.step { handler := { m_elements := l, m_indices := st }, live := live }
        (Op.copy 0) = Except.ok
          { handler :=
              { m_elements := l.set s.data.index { data := t, refCounter := (r + 1) % 256 },
                m_indices := st },
            live := live ++ [s] } := by
      simp [World.step, hlive, hcopy]
    rw [List.replicate_succ, World.run, hstep]
    simp only []
    rw [ih (l.set s.data.index { data := t, refCounter := (r + 1) % 256 }) (live ++ [s])
      ((r + 1) % 256) hlive' (getElem?_set_same _ he) (Nat.mod_lt _ (by decide)), List.set_set]
    have hmod : ((r + 1) % 256 + k) % 256 = (r + (k + 1)) % 256 := by omega
    rw [hmod, List.append_assoc]
    rfl

/-- Running `k` destructions on `k + m` live copies of one status whose slot
has a reference count above `k`: the count drops by `k`, nothing is freed. -/
theorem run_destroys (k m : Nat) (l : List Element) (st : List Nat)
    (s : Status) (t : String) (r : Nat)
    (hs : s.containsDescription = true)
    (he : l[s.data.index]? = some { data := t, refCounter := r }) (hr : r < 256)
    (hk : k < r) :
    World.run { handler := { m_elements := l, m_indices := st },
                live := List.replicate (k + m) s }
        (List.replicate k (Op.destroy 0)) =
      Except.ok
        { handler :=
            { m_elements := l.set s.data.index { data := t, refCounter := r - k },
              m_indices := st },
          live := List.replicate m s } := by
  induction k generalizing l r with
  | zero =>
    simp [World.run, set_getElem?_same l _ _ he]
  | succ k ih =>
    have hne : (r + 255) % 256 ≠ 0 := by omega
    have hd := destroy_pos { m_elements := l, m_indices := st } s _ hs he hne
    have hlen : k + 1 + m = (k + m) + 1 := by omega
    have hstep : World.step
        { handler := { m_elements := l, m_indices := st },
          live := List.replicate (k + 1 + m) s }
        (Op.destroy 0) = Except.ok
          { handler :=
              { m_elements :=
                  l.set s.data.index { data := t, refCounter := (r + 255) % 256 },
                m_indices := st },
            live := List.replicate (k + m) s } := by
      rw [hlen, List.replicate_succ]
      simp [World.step, hd]
    rw [List.replicate_succ, World.run, hstep]
    simp only []
    rw [ih (l.set s.data.index { data := t, refCounter := (r + 255) % 256 })
      ((r + 255) % 256) (getElem?_set_same _ he) (Nat.mod_lt _ (by decide)) (by omega),
      List.set_set]
    have hsub : (r + 255) % 256 - k = r - (k + 1) := by omega
    rw [hsub]

theorem step_destroy (h h1 : StatusHandler) (s : Status) (n : Nat)
    (hd : Status.destroy h s = Except.ok h1) :
    World.step { handler := h, live := List.replicate (n + 1) s } (Op.destroy 0) =
      Except.ok { handler := h1, live := List.replicate n s } := by
  simp [World.step, List.replicate_succ, hd]

theorem run_cons (w w1 : World) (op : Op) (ops : List Op)
    (hstep : w.step op = Except.ok w1) : w.run (op :: ops) = w1.run ops := by
  simp [World.run, hstep]

theorem pool31_built :
    World.step { handler := StatusHandler.init 32, live := [] }
        (Op.construct StatusCode.STC_INTERNAL_ERROR StatusSeverity.STS_CRITICAL "a") =
      Except.ok { handler := pool31 1, live := [status31] } := by
  have hinit := initStd_fresh (StatusHandler.init 32) StatusCode.STC_INTERNAL_ERROR
    StatusSeverity.STS_CRITICAL "a" 31 (pushIndices 31 []) (by decide)
    (pushIndices_succ 31 []) (by decide) (init_getElem? 32 31 (by decide))
  simp only [World.step, hinit]
  rfl

theorem pool31_slot (r : Nat) :
    (pool31 r).m_elements[status31.data.index]? = some { data := "a", refCounter := r } :=
  getElem?_set_same _ (init_getElem? 32 31 (by decide))

theorem status31_wellFormed : status31.WellFormed := by
  unfold Status.WellFormed
  decide

/-! ## C4: live-status invariant -/

/-- C4 (code at the failing input). From a fresh pool of the default capacity,
building `Status(STC_INTERNAL_ERROR, STS_CRITICAL, "a")` and copying it `255`
times runs without a failed assertion and leaves `256` live statuses that all
hold slot `31`, whose 8 bit reference count has wrapped to `0`: the statuses
contain a description, yet the slot is not referenced and reading the
description of a live status fails the assertion `refCounter > 0`. -/
theorem live_status_refcount_wraps :
    World.run { handler := StatusHandler.init 32, live := [] }
        (Op.construct StatusCode.STC_INTERNAL_ERROR StatusSeverity.STS_CRITICAL "a" ::
          List.replicate 255 (Op.copy 0)) =
      Except.ok { handler := pool31 0, live := List.replicate 256 status31 } ∧
    status31.containsDescription = true ∧
    (pool31 0).refCountAt status31.data.index = 0 ∧
    ¬ (pool31 0).Referenced status31.data.index ∧
    status31.description (pool31 0) = Except.error Abort.refCounterZero := by
  have hrun := run_copies 255 (pool31 1).m_elements (pool31 1).m_indices [status31] status31
    "a" 1 status31_wellFormed (by decide) rfl (pool31_slot 1) (by decide)
  refine ⟨?_, by decide, ?_, ?_, ?_⟩
  · rw [run_cons _ _ _ _ pool31_built]
    refine hrun.trans ?_
    simp only [pool31, List.set_set]
    rfl
  · simp [StatusHandler.refCountAt, pool31_slot 0]
  · simp [StatusHandler.Referenced, StatusHandler.refCountAt, pool31_slot 0]
  · have hc : status31.containsDescription = true := by decide
    simp [Status.description, hc, StatusHandler.getData, pool31_slot 0]

/-! ## C5: refcount conservation -/

/-- C5 (code at the failing input, `N = 256`). From a fresh pool of the default
capacity, building a descriptive status (slot `31`), copying it `256` times
and destroying all `257` instances runs without a failed assertion and leaves
index `31` twice on the free stack: the first destruction already finds the
wrapped count `1`, frees the slot while `256` instances are alive, and the last
destruction frees it again. -/
theorem refcount_conservation_fails_at_256 :
    World.run { handler := StatusHandler.init 32, live := [] }
        (Op.construct StatusCode.STC_INTERNAL_ERROR StatusSeverity.STS_CRITICAL "a" ::
          (List.replicate 256 (Op.copy 0) ++ List.replicate 257 (Op.destroy 0))) =
      Except.ok
        { handler :=
            { m_elements := (StatusHandler.init 32).m_elements,
              m_indices := 31 :: 31 :: pushIndices 31 [] },
          live := [] } ∧
    (StatusHandler.init 32).m_indices = 31 :: pushIndices 31 [] ∧
    List.count 31 (31 :: 31 :: pushIndices 31 []) = 2 := by
  have hc : status31.containsDescription = true := by decide
  -- the copies
  have hcopies := run_copies 256 (pool31 1).m_elements (pool31 1).m_indices [status31]
    status31 "a" 1 status31_wellFormed hc rfl (pool31_slot 1) (by decide)
  have hl1 : (pool31 1).m_elements.set status31.data.index
      { data := "a", refCounter := (1 + 256) % 256 } = (pool31 1).m_elements := by
    simp only [pool31, List.set_set]
    rfl
  rw [hl1] at hcopies
  -- first destruction: the count drops from 1 to 0 and the slot is freed
  have hd1 := step_destroy _ _ status31 256
    (destroy_zero (pool31 1) status31 _ hc (pool31_slot 1) (by decide))
  -- second destruction: the count wraps from 0 to 255
  have he2 : ((pool31 1).m_elements.set status31.data.index
      { data := "", refCounter := 0 })[status31.data.index]? =
        some { data := "", refCounter := 0 } := getElem?_set_same _ (pool31_slot 1)
  have hd2 := step_destroy _ _ status31 255
    (destroy_pos
      { m_elements := (pool31 1).m_elements.set status31.data.index
          { data := "", refCounter := 0 },
        m_indices := status31.data.index :: (pool31 1).m_indices }
      status31 _ hc he2 (by decide))
  simp only [List.set_set] at hd2
  -- the next 254 destructions: the count drops from 255 to 1
  have he3 : ((pool31 1).m_elements.set status31.data.index
      { data := "", refCounter := 255 })[status31.data.index]? =
        some { data := "", refCounter := 255 } := getElem?_set_same _ (pool31_slot 1)
  have hd3 := run_destroys 254 1 _ (status31.data.index :: (pool31 1).m_indices) status31
    "" 255 hc he3 (by decide) (by decide)
  simp only [List.set_set] at hd3
  -- last destruction: the count drops from 1 to 0 and the slot is freed again
  have he4 : ((pool31 1).m_elements.set status31.data.index
      { data := "", refCounter := 255 - 254 })[status31.data.index]? =
        some { data := "", refCounter := 1 } := getElem?_set_same _ (pool31_slot 1)
  have hd4 := step_destroy _ _ status31 0
    (destroy_zero
      { m_elements := (pool31 1).m_elements.set status31.data.index
          { data := "", refCounter := 255 - 254 },
        m_indices := status31.data.index :: (pool31 1).m_indices }
      status31 _ hc he4 (by decide))
  simp only [List.set_set] at hd4
  have hsplit : List.replicate 257 (Op.destroy 0) =
      Op.destroy 0 :: Op.destroy 0 :: (List.replicate 254 (Op.destroy 0) ++ [Op.destroy 0]) := by
    rw [show (257 : Nat) = 255 + 1 + 1 from rfl, List.replicate_succ, List.replicate_succ,
      show (255 : Nat) = 254 + 1 from rfl, List.replicate_succ']
  have hw1 : ({ handler := { m_elements := (pool31 1).m_elements,
                             m_indices := (pool31 1).m_indices },
                live := [status31] ++ List.replicate 256 status31 } : World) =
      { handler := pool31 1, live := List.replicate (256 + 1) status31 } := by
    rw [List.replicate_succ]
    rfl
  refine ⟨?_, rfl, by decide⟩
  rw [run_cons _ _ _ _ pool31_built, run_append]
  have hcopies' : World.run { handler := pool31 1, live := [status31] }
      (List.replicate 256 (Op.copy 0)) =
        Except.ok { handler := pool31 1, live := List.replicate (256 + 1) status31 } :=
    hcopies.trans (congrArg Except.ok hw1)
  rw [hcopies', hsplit]
  simp only []
  rw [run_cons _ _ _ _ hd1, run_cons _ _ _ _ hd2, run_append, hd3]
  simp only []
  rw [run_cons _ _ _ _ hd4]
  rfl

/-! ## C6: assignment and the previous reference -/

/-- C6 (code at the failing input). In a pool of capacity two, `d` is built
with the text "X" (slot `1`) and `o` with the text "Y" (slot `0`). The
assignment `d = o` increments the count of slot `0` and leaves slot `1` with
the reference count `1` it had, although no status holds it any more; it is
not pushed on the free stack. Assigning two freshly built descriptive statuses
in a row to one variable of a pool of capacity four therefore leaves two slots
in use, four such assignments leave four, and the fifth finds the free stack
empty. -/
theorem assignment_keeps_previous_reference :
    (∃ h1, Status.initStd (StatusHandler.init 2) StatusCode.STC_INVALID_ARGS
        StatusSeverity.STS_NORMAL "X" = Except.ok (h1, statusX) ∧
      Status.initStd h1 StatusCode.STC_NOT_POSSIBLE StatusSeverity.STS_LOW "Y" =
        Except.ok (poolXY, statusY)) ∧
    statusX.data.index = 1 ∧ statusY.data.index = 0 ∧ poolXY.refCountAt 1 = 1 ∧
    Status.assign poolXY statusX statusY =
      Except.ok
        ({ m_elements := [{ data := "Y", refCounter := 2 }, { data := "X", refCounter := 1 }],
           m_indices := [] }, statusY) ∧
    (assignLoop (StatusHandler.init 4)
        (Status.init StatusCode.STC_INTERNAL_ERROR StatusSeverity.STS_UNDEFINED)
        ["a", "b"]).map (fun r => r.1.slotsInUse) = Except.ok 2 ∧
    (assignLoop (StatusHandler.init 4)
        (Status.init StatusCode.STC_INTERNAL_ERROR StatusSeverity.STS_UNDEFINED)
        ["a", "b", "c", "d"]).map (fun r => r.1.slotsInUse) = Except.ok 4 ∧
    (assignLoop (StatusHandler.init 4)
        (Status.init StatusCode.STC_INTERNAL_ERROR StatusSeverity.STS_UNDEFINED)
        ["a", "b", "c", "d", "e"]).map (fun r => r.1.slotsInUse) =
      Except.error Abort.emptyFreeStack := by
  refine ⟨⟨_, rfl, rfl⟩, rfl, rfl, rfl, rfl, rfl, rfl, rfl⟩

/-! ## C7: copy law -/

/-- The stored text and the pool after a copy of `s` followed by the destruction
of `s`, for a slot with `1` to `255` references. -/
theorem copy_storedText (h : StatusHandler) (s : Status) (t : String) (r : Nat)
    (hw : s.WellFormed) (hs : s.containsDescription = true)
    (he : h.m_elements[s.data.index]? = some { data := t, refCounter := r })
    (hr1 : 1 ≤ r) (hr2 : r < 256) :
    ∃ h1 c h2, Status.copy h s = Except.ok (h1, c) ∧ Status.destroy h1 s = Except.ok h2 ∧
      c.containsDescription = true ∧ c.storedText h2 = Except.ok t ∧
      1 ≤ h2.refCountAt c.data.index ∧ h2.dataAt c.data.index = t ∧
      h2.m_indices = h.m_indices ∧ h2 = h ∧
      c.code = s.code ∧ c.severity = s.severity := by
  have hcopy := copy_held h s _ hw hs he
  have hne : ((r + 1) % 256 + 255) % 256 ≠ 0 := by omega
  have hd := destroy_pos
    { m_elements := h.m_elements.set s.data.index { data := t, refCounter := (r + 1) % 256 },
      m_indices := h.m_indices }
    s _ hs (getElem?_set_same _ he) hne
  have hback : ((r + 1) % 256 + 255) % 256 = r := by omega
  simp only [List.set_set, hback, set_getElem?_same _ _ _ he] at hd
  refine ⟨_, s, h, hcopy, hd, hs, ?_, ?_, ?_, rfl, rfl, rfl, rfl⟩
  · simp [Status.storedText, hs, StatusHandler.getData, he]
    omega
  · simp [StatusHandler.refCountAt, he, hr1]
  · simp [StatusHandler.dataAt, he]

/-- C7 (as amended). Copy law. For a status `s` that holds a slot with
reference count between `1` and `255` and text `t`, copy constructing `c` from
`s` and then destroying `s` both return; afterwards `c` has a description, its
text is `t` and `description()` reads `t` up to the first terminator, hence
`t` itself when `t` holds none; the slot has a reference count of at least
`1`, the free stack is the one before the copy (in fact the whole pool is),
and `c` has the code and the severity of `s`. -/
theorem copy_law (h : StatusHandler) (s : Status) (t : String) (r : Nat)
    (hw : s.WellFormed) (hs : s.containsDescription = true)
    (he : h.m_elements[s.data.index]? = some { data := t, refCounter := r })
    (hr1 : 1 ≤ r) (hr2 : r < 256) :
    ∃ h1 c h2, Status.copy h s = Except.ok (h1, c) ∧ Status.destroy h1 s = Except.ok h2 ∧
      c.containsDescription = true ∧ c.descriptionStd h2 = Except.ok t ∧
      c.description h2 = Except.ok (c_str t) ∧
      (NulFree t → c.description h2 = Except.ok t) ∧
      1 ≤ h2.refCountAt c.data.index ∧ h2.dataAt c.data.index = t ∧
      h2.m_indices = h.m_indices ∧ h2 = h ∧
      c.code = s.code ∧ c.severity = s.severity := by
  obtain ⟨h1, c, h2, hcopy, hd, hc, hst, hrest⟩ := copy_storedText h s t r hw hs he hr1 hr2
  exact ⟨h1, c, h2, hcopy, hd, hc, descriptionStd_of_storedText h2 c t hc hst,
    description_of_storedText h2 c t hst, description_of_nulFree h2 c t hst, hrest⟩

/-- Witness of C7: the status holding "X" in the pool of two described
statuses. -/
theorem copy_law_witness :
    statusX.WellFormed ∧ statusX.containsDescription = true ∧
    poolXY.m_elements[statusX.data.index]? = some { data := "X", refCounter := 1 } ∧
    NulFree "X" ∧
    ∃ h1 c h2, Status.copy poolXY statusX = Except.ok (h1, c) ∧
      Status.destroy h1 statusX = Except.ok h2 ∧
      c.containsDescription = true ∧ c.description h2 = Except.ok "X" ∧
      1 ≤ h2.refCountAt c.data.index ∧ h2 = poolXY ∧
      c.code = statusX.code ∧ c.severity = statusX.severity := by
  have wx : statusX.WellFormed := by unfold Status.WellFormed; decide
  have hx : NulFree "X" := by unfold NulFree; decide
  obtain ⟨h1, c, h2, hcopy, hd, hc, -, -, hdesc, href, -, -, heq, hcode, hsev⟩ :=
    copy_law poolXY statusX "X" 1 wx (by decide) rfl (by decide) (by decide)
  exact ⟨wx, by decide, rfl, hx, h1, c, h2, hcopy, hd, hc, hdesc hx, href, heq, hcode, hsev⟩

/-- Counterexample to C7 as stated. In the pool where slot `1` holds the text
"a", terminator, "b" with one reference, the status holding slot `1` is copied
and destroyed; the copy has a description, and `description()` reads "a",
which is not the text of the slot. -/
theorem copy_law_counterexample :
    statusX.containsDescription = true ∧
    poolNul.m_elements[statusX.data.index]? = some { data := textWithNul, refCounter := 1 } ∧
    (∃ h1 c h2, Status.copy poolNul statusX = Except.ok (h1, c) ∧
      Status.destroy h1 statusX = Except.ok h2 ∧
      c.containsDescription = true ∧ c.description h2 = Except.ok "a") ∧
    ("a" : String) ≠ textWithNul :=
  ⟨rfl, rfl, ⟨_, _, _, rfl, rfl, rfl, rfl⟩, by decide⟩



/-! ## C8: pool exhaustion -/

theorem mem_pushIndices (n i : Nat) (st : List Nat) :
    i ∈ pushIndices n st ↔ i < n ∨ i ∈ st := by
  induction n with
  | zero => simp [pushIndices]
  | succ n ih =>
    simp only [pushIndices, List.mem_cons, ih, Nat.lt_succ_iff, Nat.le_iff_lt_or_eq]
    tauto

theorem length_pushIndices (n : Nat) : (pushIndices n []).length = n := by
  induction n with
  | zero => rfl
  | succ n ih => simp [pushIndices, ih]

theorem nodup_pushIndices (n : Nat) : (pushIndices n []).Nodup := by
  induction n with
  | zero => simp [pushIndices]
  | succ n ih =>
    rw [pushIndices, List.nodup_cons]
    refine ⟨?_, ih⟩
    rw [mem_pushIndices]
    simp

theorem getAvailableIndex_nil (h : StatusHandler) (hst : h.m_indices = []) :
    h.getAvailableIndex = Except.error Abort.emptyFreeStack := by
  simp [StatusHandler.getAvailableIndex, hst]

theorem getAvailableIndex_cons (h : StatusHandler) (k : Nat) (rest : List Nat) (e : Element)
    (hst : h.m_indices = k :: rest) (he : h.m_elements[k]? = some e) :
    h.getAvailableIndex = Except.ok
      ({ m_elements :=
            h.m_elements.set k { data := e.data, refCounter := (e.refCounter + 1) % 256 },
          m_indices := rest }, k) := by
  have hinc : (StatusHandler.mk h.m_elements rest).incrementRef k = _ :=
    incrementRef_eq _ k e he
  simp only [StatusHandler.getAvailableIndex, hst, hinc]

/-- Allocating `k` times from a pool whose free stack holds `k - 1, ..., 0`:
every allocation returns and the indices come out in that order. -/
theorem allocate_pushIndices (k : Nat) (h : StatusHandler)
    (hst : h.m_indices = pushIndices k []) (hlen : k ≤ h.m_elements.length) :
    ∃ h1, allocate k h = Except.ok (h1, pushIndices k []) ∧ h1.m_indices = [] := by
  induction k generalizing h with
  | zero => exact ⟨h, rfl, hst⟩
  | succ k ih =>
    have hk : k < h.m_elements.length := by omega
    have he : h.m_elements[k]? = some h.m_elements[k] := List.getElem?_eq_getElem hk
    have hget := getAvailableIndex_cons h k (pushIndices k []) _ hst he
    obtain ⟨h1, hal, hnil⟩ := ih
      { m_elements := h.m_elements.set k
          { data := h.m_elements[k].data, refCounter := (h.m_elements[k].refCounter + 1) % 256 },
        m_indices := pushIndices k [] }
      rfl (by simp only [List.length_set]; omega)
    exact ⟨h1, by simp only [allocate, hget, hal, pushIndices], hnil⟩

theorem initStd_exhausted (h : StatusHandler) (code : StatusCode) (sev : StatusSeverity)
    (t : String) (ht : t ≠ "") (hst : h.m_indices = []) :
    Status.initStd h code sev t = Except.error Abort.emptyFreeStack := by
  have hc : (Status.init code sev).containsDescription = false := by
    rw [status_init_data]
    rfl
  simp [Status.initStd, ht, Status.appendDescription, hc, getAvailableIndex_nil h hst]

/-- Building one descriptive status per text in a pool whose free stack holds
`k - 1, ..., 0`, all of them free slots, with `k ≤ 2 ^ 16`: every construction
returns and the statuses hold these indices in that order. -/
theorem constructAll_indices (code : StatusCode) (sev : StatusSeverity)
    (texts : List String) (h : StatusHandler)
    (hne : ∀ t ∈ texts, t ≠ "") (hst : h.m_indices = pushIndices texts.length [])
    (hk : texts.length ≤ 65536)
    (hfree : ∀ j, j < texts.length → h.m_elements[j]? = some { data := "", refCounter := 0 }) :
    ∃ h1 ss, constructAll code sev texts h = Except.ok (h1, ss) ∧
      ss.map (fun s => s.data.index) = pushIndices texts.length [] ∧ h1.m_indices = [] := by
  induction texts generalizing h with
  | nil => exact ⟨h, [], rfl, rfl, hst⟩
  | cons t ts ih =>
    simp only [List.length_cons] at hst hk hfree
    have hinit := initStd_fresh h code sev t ts.length (pushIndices ts.length [])
      (hne t (List.mem_cons_self t ts)) hst (by omega) (hfree ts.length (by omega))
    obtain ⟨h1, ss, hall, hidx, hnil⟩ := ih
      { m_elements := h.m_elements.set ts.length { data := t, refCounter := 1 },
        m_indices := pushIndices ts.length [] }
      (fun u hu => hne u (List.mem_cons_of_mem t hu)) rfl (by omega)
      (fun j hj => by
        simp only []
        rw [List.getElem?_set_ne (by omega)]
        exact hfree j (by omega))
    refine ⟨h1,
      { data := { code := code.toNat, severity := sev.toNat, index := ts.length } } :: ss,
      by simp only [constructAll, hinit, hall], ?_, hnil⟩
    simp only [List.map_cons, hidx, List.length_cons, pushIndices]

/-- In a fresh pool of more than `2 ^ 16` slots the first construction of a
descriptive status fails: the index returned by the pool does not fit the 16
bit field, and the slot at the stored index is not referenced. -/
theorem initStd_truncated (m : Nat) (hm : 65536 ≤ m) (code : StatusCode)
    (sev : StatusSeverity) (t : String) (ht : t ≠ "") :
    (∃ h1, (StatusHandler.init (m + 1)).getAvailableIndex = Except.ok (h1, m)) ∧
    Status.initStd (StatusHandler.init (m + 1)) code sev t =
      Except.error Abort.refCounterZero := by
  have hget := getAvailableIndex_cons (StatusHandler.init (m + 1)) m (pushIndices m []) _
    (pushIndices_succ m []) (init_getElem? (m + 1) m (by omega))
  refine ⟨⟨_, hget⟩, ?_⟩
  have hc : (Status.init code sev).containsDescription = false := by
    rw [status_init_data]
    rfl
  have hlt : m % 65536 < m + 1 := by omega
  have hne : m ≠ m % 65536 := by omega
  have hslot : ((StatusHandler.init (m + 1)).m_elements.set m
      { data := "", refCounter := (0 + 1) % 256 })[m % 65536]? =
        some { data := "", refCounter := 0 } := by
    rw [List.getElem?_set_ne hne]
    exact init_getElem? (m + 1) (m % 65536) hlt
  simp [Status.initStd, ht, Status.appendDescription, hc, hget, StatusHandler.appendData, hslot]

/-- C8 (as amended). Pool exhaustion. In a fresh pool of any capacity `n`,
`n` calls of `getAvailableIndex` in a row all return, the indices returned are
pairwise distinct and below `n`, and the next call fails the assertion on the
empty free stack. When the allocations are made by building descriptive
statuses the same holds for every capacity `n ≤ 65536 = 2 ^ 16`: `n`
constructions with non empty texts return statuses that hold pairwise
distinct indices below `n`, and one more construction fails on the empty free
stack; for `n ≤ 32768` every one of these statuses has a description. -/
theorem pool_exhaustion (n : Nat) :
    (∃ h1 ids, allocate n (StatusHandler.init n) = Except.ok (h1, ids) ∧
      ids.length = n ∧ ids.Nodup ∧ (∀ i ∈ ids, i < n) ∧
      h1.getAvailableIndex = Except.error Abort.emptyFreeStack) ∧
    (n ≤ 65536 → ∀ (code : StatusCode) (sev : StatusSeverity) (texts : List String),
      texts.length = n → (∀ t ∈ texts, t ≠ "") →
      ∃ h1 ss, constructAll code sev texts (StatusHandler.init n) = Except.ok (h1, ss) ∧
        ss.length = n ∧ (ss.map (fun s => s.data.index)).Nodup ∧
        (∀ s ∈ ss, s.data.index < n) ∧
        (n ≤ 32768 → ∀ s ∈ ss, s.containsDescription = true) ∧
        ∀ t, t ≠ "" → Status.initStd h1 code sev t = Except.error Abort.emptyFreeStack) := by
  constructor
  · obtain ⟨h1, hal, hnil⟩ := allocate_pushIndices n (StatusHandler.init n) rfl
      (by simp [StatusHandler.init])
    refine ⟨h1, _, hal, length_pushIndices n, nodup_pushIndices n, ?_,
      getAvailableIndex_nil h1 hnil⟩
    intro i hi
    simpa [mem_pushIndices] using hi
  · intro hn code sev texts hlen hne
    subst hlen
    obtain ⟨h1, ss, hall, hidx, hnil⟩ := constructAll_indices code sev texts
      (StatusHandler.init texts.length) hne rfl hn (fun j hj => init_getElem? _ j hj)
    have hlt : ∀ s ∈ ss, s.data.index < texts.length := by
      intro s hs
      have hmem : s.data.index ∈ ss.map (fun s => s.data.index) :=
        List.mem_map_of_mem _ hs
      rw [hidx, mem_pushIndices] at hmem
      simpa using hmem
    refine ⟨h1, ss, hall, ?_, ?_, hlt, ?_,
      fun t ht => initStd_exhausted h1 code sev t ht hnil⟩
    · have := congrArg List.length hidx
      simpa [length_pushIndices] using this
    · rw [hidx]
      exact nodup_pushIndices _
    · intro hsmall s hs
      have := hlt s hs
      simp [Status.containsDescription, INV_INDEX]
      omega

/-- Witness of C8: capacity 2, the statuses "a" and "b" are built, the third
descriptive status fails. -/
theorem pool_exhaustion_witness :
    (2 : Nat) ≤ 65536 ∧
    ∃ h1 ss, constructAll StatusCode.STC_INTERNAL_ERROR StatusSeverity.STS_NORMAL ["a", "b"]
        (StatusHandler.init 2) = Except.ok (h1, ss) ∧
      ss.length = 2 ∧ (ss.map (fun s => s.data.index)).Nodup ∧
      (∀ s ∈ ss, s.data.index < 2) ∧
      ((2 : Nat) ≤ 32768 → ∀ s ∈ ss, s.containsDescription = true) ∧
      ∀ t, t ≠ "" → Status.initStd h1 StatusCode.STC_INTERNAL_ERROR
        StatusSeverity.STS_NORMAL t = Except.error Abort.emptyFreeStack :=
  ⟨by decide,
    (pool_exhaustion 2).2 (by decide) StatusCode.STC_INTERNAL_ERROR StatusSeverity.STS_NORMAL
      ["a", "b"] rfl (by decide)⟩

/-- Counterexample to C8 as stated. In a fresh pool of capacity `65537` the
pool returns the index `65536` to the first construction of a descriptive
status; the 16 bit index field stores it as `0`, slot `0` is not referenced,
and the construction fails the assertion `refCounter > 0` of `getData`: the
first of the `n` allocations made by building descriptive statuses does not
succeed. -/
theorem pool_exhaustion_counterexample :
    (∃ h1, (StatusHandler.init 65537).getAvailableIndex = Except.ok (h1, 65536)) ∧
    65536 % 65536 = 0 ∧
    Status.initStd (StatusHandler.init 65537) StatusCode.STC_INTERNAL_ERROR
      StatusSeverity.STS_NORMAL "a" = Except.error Abort.refCounterZero :=
  ⟨(initStd_truncated 65536 (by decide) StatusCode.STC_INTERNAL_ERROR
      StatusSeverity.STS_NORMAL "a" (by decide)).1, rfl,
    (initStd_truncated 65536 (by decide) StatusCode.STC_INTERNAL_ERROR
      StatusSeverity.STS_NORMAL "a" (by decide)).2⟩



/-! ## C9: descriptive construction and append -/

theorem getAvailableIndex_ok (h h1 : StatusHandler) (k : Nat)
    (hok : h.getAvailableIndex = Except.ok (h1, k)) :
    ∃ rest e, h.m_indices = k :: rest ∧ h.m_elements[k]? = some e ∧
      h1 = { m_elements :=
               h.m_elements.set k { data := e.data, refCounter := (e.refCounter + 1) % 256 },
             m_indices := rest } := by
  cases hst : h.m_indices with
  | nil => simp [StatusHandler.getAvailableIndex, hst] at hok
  | cons a rest =>
    cases he : h.m_elements[a]? with
    | none => simp [StatusHandler.getAvailableIndex, hst, StatusHandler.incrementRef, he] at hok
    | some e =>
      rw [getAvailableIndex_cons h a rest e hst he] at hok
      simp only [Except.ok.injEq, Prod.mk.injEq] at hok
      obtain ⟨h1eq, hk⟩ := hok
      subst hk
      exact ⟨rest, e, rfl, he, h1eq.symm⟩

theorem appendData_ok (h h1 : StatusHandler) (i : Nat) (d : String)
    (hok : h.appendData i d = Except.ok h1) :
    ∃ e, h.m_elements[i]? = some e ∧ 0 < e.refCounter ∧
      h1 = { m_elements := h.m_elements.set i { data := e.data ++ d, refCounter := e.refCounter },
             m_indices := h.m_indices } := by
  cases he : h.m_elements[i]? with
  | none => simp [StatusHandler.appendData, he] at hok
  | some e =>
    by_cases hr : 0 < e.refCounter
    · rw [appendData_eq h i e d he hr] at hok
      simp only [Except.ok.injEq] at hok
      exact ⟨e, rfl, hr, hok.symm⟩
    · simp [StatusHandler.appendData, he, hr] at hok

/-- Writing a slot whose reference count is positive keeps the free stack clean. -/
theorem clean_set (n : Nat) (h : StatusHandler) (i : Nat) (e e1 : Element)
    (hc : h.FreeStackClean n) (he : h.m_elements[i]? = some e) (hpos : 0 < e.refCounter) :
    StatusHandler.FreeStackClean n
      { m_elements := h.m_elements.set i e1, m_indices := h.m_indices } := by
  obtain ⟨hlen, hnd, hfree⟩ := hc
  refine ⟨by simp [hlen], hnd, ?_⟩
  intro k hk
  have hne : i ≠ k := by
    rintro rfl
    have := hfree i hk
    rw [he] at this
    simp only [Option.some.injEq] at this
    rw [this] at hpos
    exact absurd hpos (by decide)
  simp only []
  rw [List.getElem?_set_ne hne]
  exact hfree k hk

theorem clean_init (n : Nat) : (StatusHandler.init n).FreeStackClean n := by
  refine ⟨by simp [StatusHandler.init], nodup_pushIndices n, ?_⟩
  intro k hk
  have hlt : k < n := by
    have := (mem_pushIndices n k []).mp hk
    simpa using this
  exact init_getElem? n k hlt

/-- Every reachable pool state has a clean free stack. -/
theorem clean_of_reachable (n : Nat) (h : StatusHandler) (hr : h.Reachable n) :
    h.FreeStackClean n := by
  induction hr with
  | init => exact clean_init n
  | getAvailableIndex h h1 k _ hok ih =>
    obtain ⟨rest, e, hst, he, rfl⟩ := getAvailableIndex_ok h h1 k hok
    obtain ⟨hlen, hnd, hfree⟩ := ih
    rw [hst, List.nodup_cons] at hnd
    refine ⟨by simp [hlen], hnd.2, ?_⟩
    intro j hj
    have hne : k ≠ j := by
      rintro rfl
      exact hnd.1 hj
    simp only []
    rw [List.getElem?_set_ne hne]
    exact hfree j (by rw [hst]; exact List.mem_cons_of_mem _ hj)
  | incrementRef h h1 i _ href hok ih =>
    obtain ⟨e, he, hpos⟩ := (referenced_iff h i).mp href
    rw [incrementRef_eq h i e he] at hok
    simp only [Except.ok.injEq] at hok
    subst hok
    exact clean_set n h i e _ ih he hpos
  | decrementRef h h1 i _ href hok ih =>
    obtain ⟨e, he, hpos⟩ := (referenced_iff h i).mp href
    by_cases hz : (e.refCounter + 255) % 256 = 0
    · rw [decrementRef_eq_zero h i e he hz] at hok
      simp only [Except.ok.injEq] at hok
      subst hok
      have hcl := clean_set n h i e { data := "", refCounter := 0 } ih he hpos
      obtain ⟨hlen, hnd, hfree⟩ := hcl
      have hni : i ∉ h.m_indices := by
        intro hi
        have := ih.2.2 i hi
        rw [he] at this
        simp only [Option.some.injEq] at this
        rw [this] at hpos
        exact absurd hpos (by decide)
      refine ⟨hlen, List.nodup_cons.mpr ⟨hni, hnd⟩, ?_⟩
      intro j hj
      rcases List.mem_cons.mp hj with rfl | hj
      · exact getElem?_set_same _ he
      · exact hfree j hj
    · rw [decrementRef_eq_pos h i e he hz] at hok
      simp only [Except.ok.injEq] at hok
      subst hok
      exact clean_set n h i e _ ih he hpos
  | appendData h h1 i d _ hok ih =>
    obtain ⟨e, he, hpos, rfl⟩ := appendData_ok h h1 i d hok
    exact clean_set n h i e _ ih he hpos

theorem initCStr_some (h : StatusHandler) (code : StatusCode) (sev : StatusSeverity)
    (t : String) (ht : t ≠ "") (hn : NulFree t) :
    Status.initCStr h code sev (some t) = Status.initStd h code sev t := by
  simp [Status.initCStr, Status.initStd, ht, c_str_of_nulFree t hn]

/-- The stored text after the construction of a descriptive status in a reachable
state of a pool of at most `32768` slots, and after a further append. -/
theorem construct_storedText (n : Nat) (hn : n ≤ 32768) (h : StatusHandler)
    (hreach : h.Reachable n) (hfree : h.m_indices ≠ [])
    (code : StatusCode) (sev : StatusSeverity) (t : String) (ht : t ≠ "") :
    ∃ k rest h1 s, h.m_indices = k :: rest ∧
      Status.initStd h code sev t = Except.ok (h1, s) ∧
      s.containsDescription = true ∧ s.storedText h1 = Except.ok t ∧
      s.code = code.toNat ∧ s.severity = sev.toNat ∧
      s.data.index = k ∧ h.refCountAt k = 0 ∧ h1.refCountAt k = 1 ∧ k ∉ h1.m_indices ∧
      ∀ u : String, ∃ h2 s2, s.appendDescription h1 u = Except.ok (h2, s2) ∧
        s2.storedText h2 = Except.ok (t ++ u) ∧ s2.data.index = s.data.index := by
  obtain ⟨hlen, hnd, hclean⟩ := clean_of_reachable n h hreach
  obtain ⟨k, rest, hst⟩ : ∃ k rest, h.m_indices = k :: rest := by
    cases hm : h.m_indices with
    | nil => exact absurd hm hfree
    | cons k rest => exact ⟨k, rest, rfl⟩
  have hek := hclean k (by rw [hst]; exact List.mem_cons_self k rest)
  have hk : k < 32768 := by
    have := lt_length_of_getElem? hek
    omega
  have hinit := initStd_fresh h code sev t k rest ht hst (by omega) hek
  have hc : Status.containsDescription
      { data := { code := code.toNat, severity := sev.toNat, index := k } } = true := by
    simp [Status.containsDescription, INV_INDEX]
    omega
  have hek1 : (h.m_elements.set k { data := t, refCounter := 1 })[k]? =
      some { data := t, refCounter := 1 } := getElem?_set_same _ hek
  rw [hst, List.nodup_cons] at hnd
  refine ⟨k, rest, _, _, hst, hinit, hc, ?_,
    rfl, rfl, rfl, ?_, ?_, hnd.1, ?_⟩
  · exact storedText_set h.m_elements rest
      { data := { code := code.toNat, severity := sev.toNat, index := k } }
      _ { data := t, refCounter := 1 } hc hek Nat.zero_lt_one
  · simp [StatusHandler.refCountAt, hek]
  · simp [StatusHandler.refCountAt, hek1]
  · intro u
    have hap := appendDescription_held
      { m_elements := h.m_elements.set k { data := t, refCounter := 1 }, m_indices := rest }
      { data := { code := code.toNat, severity := sev.toNat, index := k } } u
      { data := t, refCounter := 1 } hc hek1 Nat.zero_lt_one
    refine ⟨_, _, hap, ?_, rfl⟩
    exact storedText_set (h.m_elements.set k { data := t, refCounter := 1 }) rest
      { data := { code := code.toNat, severity := sev.toNat, index := k } }
      _ { data := t ++ u, refCounter := 1 } hc hek1 Nat.zero_lt_one

/-- C9 (as amended). Descriptive construction and append. In a pool of
capacity `n ≤ 32768 = INV_INDEX`, in every reachable state whose free stack
is not empty, building `Status(code, severity, t)` with a non empty text `t`
returns a status that has a description, stores `t`, has the given code and
severity and holds the index `k` that was on top of the free stack; slot `k`
had the reference count `0`, has the count `1` afterwards and is no longer on
the free stack; `description()` reads `t` up to the first terminator, hence
`t` itself when `t` holds none, and then the C string constructor builds the
same status. For every further text `u`, `appendDescription(u)` returns, the
stored text is `t ++ u`, the index is unchanged, and `description()` reads
`t ++ u` up to the first terminator, hence `t ++ u` itself when neither text
holds one. -/
theorem descriptive_construct_and_append (n : Nat) (hn : n ≤ 32768) (h : StatusHandler)
    (hreach : h.Reachable n) (hfree : h.m_indices ≠ [])
    (code : StatusCode) (sev : StatusSeverity) (t : String) (ht : t ≠ "") :
    ∃ k rest h1 s, h.m_indices = k :: rest ∧
      Status.initStd h code sev t = Except.ok (h1, s) ∧
      (NulFree t → Status.initCStr h code sev (some t) = Except.ok (h1, s)) ∧
      s.containsDescription = true ∧ s.descriptionStd h1 = Except.ok t ∧
      s.description h1 = Except.ok (c_str t) ∧
      (NulFree t → s.description h1 = Except.ok t) ∧
      s.code = code.toNat ∧ s.severity = sev.toNat ∧
      s.data.index = k ∧ h.refCountAt k = 0 ∧ h1.refCountAt k = 1 ∧ k ∉ h1.m_indices ∧
      ∀ u : String, ∃ h2 s2, s.appendDescription h1 u = Except.ok (h2, s2) ∧
        s2.data.index = s.data.index ∧
        s2.descriptionStd h2 = Except.ok (t ++ u) ∧
        s2.description h2 = Except.ok (c_str (t ++ u)) ∧
        (NulFree t → NulFree u → s2.description h2 = Except.ok (t ++ u)) := by
  obtain ⟨k, rest, h1, s, hst, hinit, hc, htxt, hcode, hsev, hidx, hr0, hr1, hnot, happ⟩ :=
    construct_storedText n hn h hreach hfree code sev t ht
  refine ⟨k, rest, h1, s, hst, hinit,
    fun hnul => (initCStr_some h code sev t ht hnul).trans hinit, hc,
    descriptionStd_of_storedText h1 s t hc htxt, description_of_storedText h1 s t htxt,
    description_of_nulFree h1 s t htxt, hcode, hsev, hidx, hr0, hr1, hnot, ?_⟩
  intro u
  obtain ⟨h2, s2, hap, htxt2, hidx2⟩ := happ u
  exact ⟨h2, s2, hap, hidx2,
    descriptionStd_of_storedText h2 s2 _ (contains_of_index s s2 hidx2 hc) htxt2,
    description_of_storedText h2 s2 _ htxt2,
    fun hnt hnu => description_of_nulFree h2 s2 _ htxt2 (nulFree_append t u hnt hnu)⟩

/-- Witness of C9: the first descriptive status built in a fresh pool of
capacity two, and "b" appended to it. -/
theorem descriptive_construct_and_append_witness :
    (2 : Nat) ≤ 32768 ∧ (StatusHandler.init 2).Reachable 2 ∧
    (StatusHandler.init 2).m_indices ≠ [] ∧ ("a" : String) ≠ "" ∧
    NulFree "a" ∧ NulFree "b" ∧
    ∃ h1 s, Status.initStd (StatusHandler.init 2) StatusCode.STC_INVALID_ARGS
        StatusSeverity.STS_LOW "a" = Except.ok (h1, s) ∧
      Status.initCStr (StatusHandler.init 2) StatusCode.STC_INVALID_ARGS
        StatusSeverity.STS_LOW (some "a") = Except.ok (h1, s) ∧
      s.containsDescription = true ∧ s.description h1 = Except.ok "a" ∧
      s.code = StatusCode.STC_INVALID_ARGS.toNat ∧
      s.severity = StatusSeverity.STS_LOW.toNat ∧ h1.refCountAt s.data.index = 1 ∧
      ∃ h2 s2, s.appendDescription h1 "b" = Except.ok (h2, s2) ∧
        s2.data.index = s.data.index ∧ s2.description h2 = Except.ok ("a" ++ "b") := by
  have ha : NulFree "a" := by unfold NulFree; decide
  have hb : NulFree "b" := by unfold NulFree; decide
  obtain ⟨k, rest, h1, s, -, hinit, hcstr, hc, -, -, hd, hcode, hsev, hidx, -, hr1, -, happ⟩ :=
    descriptive_construct_and_append 2 (by decide) (StatusHandler.init 2)
      StatusHandler.Reachable.init (by decide) StatusCode.STC_INVALID_ARGS
      StatusSeverity.STS_LOW "a" (by decide)
  obtain ⟨h2, s2, hap, hidx2, -, -, hd2⟩ := happ "b"
  exact ⟨by decide, StatusHandler.Reachable.init, by decide, by decide, ha, hb,
    h1, s, hinit, hcstr ha, hc, hd ha, hcode, hsev, by rw [hidx]; exact hr1,
    h2, s2, hap, hidx2, hd2 ha hb⟩

/-- Counterexample to C9 as stated. A fresh pool of capacity `32769` is a
reachable state with a non empty free stack; building
`Status(STC_INTERNAL_ERROR, STS_CRITICAL, "t")` in it returns a status that
has no description and reads the empty string: the index `32768` it was given
is `INV_INDEX`. Also, in a fresh pool of capacity two, the status built from
the non empty text "a", terminator, "b" stores that text, but `description()`
reads "a". -/
theorem descriptive_construct_counterexample :
    ((StatusHandler.init 32769).Reachable 32769 ∧
    (StatusHandler.init 32769).m_indices ≠ [] ∧
    ∃ h1 s, Status.initStd (StatusHandler.init 32769) StatusCode.STC_INTERNAL_ERROR
        StatusSeverity.STS_CRITICAL "t" = Except.ok (h1, s) ∧
      s.containsDescription = false ∧ s.description h1 = Except.ok "") ∧
    (textWithNul ≠ "" ∧
      (∃ h1 s, Status.initStd (StatusHandler.init 2) StatusCode.STC_INTERNAL_ERROR
          StatusSeverity.STS_CRITICAL textWithNul = Except.ok (h1, s) ∧
        s.descriptionStd h1 = Except.ok textWithNul ∧
        s.description h1 = Except.ok "a") ∧
      ("a" : String) ≠ textWithNul) := by
  have hst : (StatusHandler.init 32769).m_indices = 32768 :: pushIndices 32768 [] :=
    pushIndices_succ 32768 []
  have hinit := initStd_fresh (StatusHandler.init 32769) StatusCode.STC_INTERNAL_ERROR
    StatusSeverity.STS_CRITICAL "t" 32768 (pushIndices 32768 []) (by decide)
    hst (by decide) (init_getElem? 32769 32768 (by decide))
  refine ⟨?_, by decide, ⟨_, _, rfl, rfl, rfl⟩, by decide⟩
  refine ⟨StatusHandler.Reachable.init, ?_, _, _, hinit, rfl, ?_⟩
  · rw [hst]
    simp
  · rw [Status.description]
    exact if_pos rfl

/-! ## C10: construction with an empty text -/

/-- C10 (code at the failing input). The `std::string` constructor does what
the claim says for every pool, code and severity: with an empty text it leaves
the pool unchanged and the status has no description and reads the empty
string; so does the C string constructor for the null pointer. For the empty
C string `""` the C string constructor takes a slot: in a fresh pool of the
default capacity, `Status(STC_NO_ERROR, STS_UNDEFINED, "")` holds slot `31`,
contains a description, and the pool has one reference on slot `31` and one
free index less. -/
theorem empty_text_construction :
    (∀ (h : StatusHandler) (code : StatusCode) (sev : StatusSeverity),
      Status.initStd h code sev "" = Except.ok (h, Status.init code sev) ∧
      (Status.init code sev).containsDescription = false ∧
      (Status.init code sev).description h = Except.ok "") ∧
    (∀ (h : StatusHandler) (code : StatusCode) (sev : StatusSeverity),
      Status.initCStr h code sev none = Except.ok (h, Status.init code sev)) ∧
    (∃ h1 s, Status.initCStr (StatusHandler.init 32) StatusCode.STC_NO_ERROR
        StatusSeverity.STS_UNDEFINED (some "") = Except.ok (h1, s) ∧
      s.containsDescription = true ∧ s.data.index = 31 ∧ s.description h1 = Except.ok "" ∧
      h1.refCountAt 31 = 1 ∧ (StatusHandler.init 32).refCountAt 31 = 0 ∧
      h1.m_indices.length + 1 = (StatusHandler.init 32).m_indices.length ∧
      h1 ≠ StatusHandler.init 32) := by
  refine ⟨?_, ?_, ?_⟩
  · intro h code sev
    have hc : (Status.init code sev).containsDescription = false := by
      rw [status_init_data]
      rfl
    refine ⟨by simp [Status.initStd], hc, ?_⟩
    simp [Status.description, hc]
  · intro h code sev
    rfl
  · refine ⟨_, _, rfl, rfl, rfl, rfl, rfl, rfl, rfl, by decide⟩

/-! ## C11: construction from a boolean -/

/-- C11. Boolean construction. `Status(true)` has the code NoError, the
severity Undefined, no description and converts to `true`; `Status(false)` has
the code InternalError, the severity Normal, no description and converts to
`false`. In every pool state the construction leaves the pool as it was, the
new status reads the empty description, and neither copying nor destroying it
touches the pool. -/
theorem boolean_construction :
    (Status.initBool true).code = StatusCode.STC_NO_ERROR.toNat ∧
    (Status.initBool true).severity = StatusSeverity.STS_UNDEFINED.toNat ∧
    (Status.initBool true).containsDescription = false ∧
    (Status.initBool true).toBool = true ∧
    (Status.initBool false).code = StatusCode.STC_INTERNAL_ERROR.toNat ∧
    (Status.initBool false).severity = StatusSeverity.STS_NORMAL.toNat ∧
    (Status.initBool false).containsDescription = false ∧
    (Status.initBool false).toBool = false ∧
    ∀ (h : StatusHandler) (b : Bool),
      (Status.initBoolIn h b).1 = h ∧
      (Status.initBoolIn h b).2 = Status.initBool b ∧
      (Status.initBool b).description h = Except.ok "" ∧
      Status.copy h (Status.initBool b) = Except.ok (h, Status.initBool b) ∧
      Status.destroy h (Status.initBool b) = Except.ok h := by
  refine ⟨rfl, rfl, rfl, rfl, rfl, rfl, rfl, rfl, ?_⟩
  intro h b
  refine ⟨rfl, rfl, ?_, ?_, ?_⟩ <;> cases b <;> rfl

/-! ## C12: allocate postcondition -/

/-- C12. Allocate postcondition. In every pool state reachable from a freshly
constructed pool of any capacity `n` (by calls of `getAvailableIndex`,
`incrementRef` and `decrementRef` on referenced slots, and by description
writes) whose free stack is not empty, `getAvailableIndex` returns the index
`k` on top of the free stack; afterwards the free stack is the rest of the
old one and does not contain `k`, slot `k` has the reference count `1` and
its text is untouched, and every other slot is as before. -/
theorem allocate_postcondition (n : Nat) (h : StatusHandler) (hreach : h.Reachable n)
    (hne : h.m_indices ≠ []) :
    ∃ k rest h1, h.m_indices = k :: rest ∧ h.getAvailableIndex = Except.ok (h1, k) ∧
      h1.m_indices = rest ∧ k ∉ h1.m_indices ∧
      h1.refCountAt k = 1 ∧ h1.dataAt k = h.dataAt k ∧
      (∀ j, j ≠ k → h1.m_elements[j]? = h.m_elements[j]?) ∧
      h1.m_elements.length = h.m_elements.length := by
  obtain ⟨-, hnd, hclean⟩ := clean_of_reachable n h hreach
  obtain ⟨k, rest, hst⟩ : ∃ k rest, h.m_indices = k :: rest := by
    cases hm : h.m_indices with
    | nil => exact absurd hm hne
    | cons k rest => exact ⟨k, rest, rfl⟩
  have hek := hclean k (by rw [hst]; exact List.mem_cons_self k rest)
  have hget := getAvailableIndex_cons h k rest _ hst hek
  rw [hst, List.nodup_cons] at hnd
  refine ⟨k, rest, _, hst, hget, rfl, hnd.1, ?_, ?_, ?_, ?_⟩
  · simp [StatusHandler.refCountAt, getElem?_set_same _ hek]
  · simp [StatusHandler.dataAt, getElem?_set_same _ hek, hek]
  · intro j hj
    exact List.getElem?_set_ne (fun hkj => hj hkj.symm)
  · simp

/-- Witness of C12: the first allocation in a fresh pool of capacity two. -/
theorem allocate_postcondition_witness :
    (StatusHandler.init 2).Reachable 2 ∧ (StatusHandler.init 2).m_indices ≠ [] ∧
    ∃ k rest h1, (StatusHandler.init 2).m_indices = k :: rest ∧
      (StatusHandler.init 2).getAvailableIndex = Except.ok (h1, k) ∧
      h1.m_indices = rest ∧ k ∉ h1.m_indices ∧
      h1.refCountAt k = 1 ∧ h1.dataAt k = (StatusHandler.init 2).dataAt k ∧
      (∀ j, j ≠ k → h1.m_elements[j]? = (StatusHandler.init 2).m_elements[j]?) ∧
      h1.m_elements.length = (StatusHandler.init 2).m_elements.length :=
  ⟨StatusHandler.Reachable.init, by decide,
    allocate_postcondition 2 (StatusHandler.init 2) StatusHandler.Reachable.init (by decide)⟩

/-! ## C13: release postcondition -/

/-- C13. Release postcondition. For every pool and every valid index `i` whose
slot has the text `t` and a reference count `r` with `1 ≤ r` (and `r ≤ 255`,
the range of the 8 bit counter), `decrementRef(i)` returns and leaves the slot
with the count `r - 1`; when `r = 1` the text of the slot is empty and `i` is
on top of the old free stack; when `r > 1` the text and the free stack are
unchanged; every other slot is unchanged. -/
theorem release_postcondition (h : StatusHandler) (i : Nat) (t : String) (r : Nat)
    (he : h.m_elements[i]? = some { data := t, refCounter := r })
    (hr1 : 1 ≤ r) (hr2 : r < 256) :
    ∃ h1, h.decrementRef i = Except.ok h1 ∧ h1.refCountAt i = r - 1 ∧
      (r = 1 → h1.dataAt i = "" ∧ h1.m_indices = i :: h.m_indices) ∧
      (1 < r → h1.dataAt i = t ∧ h1.m_indices = h.m_indices) ∧
      (∀ j, j ≠ i → h1.m_elements[j]? = h.m_elements[j]?) ∧
      h1.m_elements.length = h.m_elements.length := by
  by_cases hz : r = 1
  · have hmod : (r + 255) % 256 = 0 := by omega
    refine ⟨_, decrementRef_eq_zero h i _ he hmod, ?_, ?_, ?_, ?_, ?_⟩
    · simp [StatusHandler.refCountAt, getElem?_set_same _ he, hz]
    · intro _
      simp [StatusHandler.dataAt, getElem?_set_same _ he]
    · intro h1
      omega
    · intro j hj
      exact List.getElem?_set_ne (fun hij => hj hij.symm)
    · simp
  · have hmod : (r + 255) % 256 ≠ 0 := by omega
    have hval : (r + 255) % 256 = r - 1 := by omega
    refine ⟨_, decrementRef_eq_pos h i _ he hmod, ?_, ?_, ?_, ?_, ?_⟩
    · simp [StatusHandler.refCountAt, getElem?_set_same _ he, hval]
    · intro h1
      exact absurd h1 hz
    · intro _
      simp [StatusHandler.dataAt, getElem?_set_same _ he]
    · intro j hj
      exact List.getElem?_set_ne (fun hij => hj hij.symm)
    · simp

/-- Witness of C13: releasing slot `1` of the pool of two described statuses. -/
theorem release_postcondition_witness :
    poolXY.m_elements[1]? = some { data := "X", refCounter := 1 } ∧
    ∃ h1, poolXY.decrementRef 1 = Except.ok h1 ∧ h1.refCountAt 1 = 1 - 1 ∧
      ((1 : Nat) = 1 → h1.dataAt 1 = "" ∧ h1.m_indices = 1 :: poolXY.m_indices) ∧
      ((1 : Nat) < 1 → h1.dataAt 1 = "X" ∧ h1.m_indices = poolXY.m_indices) ∧
      (∀ j, j ≠ 1 → h1.m_elements[j]? = poolXY.m_elements[j]?) ∧
      h1.m_elements.length = poolXY.m_elements.length :=
  ⟨rfl, release_postcondition poolXY 1 "X" 1 rfl (by decide) (by decide)⟩

/-! ## C14: pool invariant -/

theorem refCountAt_eq (h : StatusHandler) (i : Nat) (e : Element)
    (he : h.m_elements[i]? = some e) : h.refCountAt i = e.refCounter := by
  simp [StatusHandler.refCountAt, he]

/-- The invariant holds in every freshly constructed pool. -/
theorem poolInvariant_init (n : Nat) : (StatusHandler.init n).PoolInvariant := by
  refine ⟨?_, nodup_pushIndices n, ?_⟩
  · intro i e he _
    have hlt : i < n := by
      have := lt_length_of_getElem? he
      simpa [StatusHandler.init] using this
    rw [init_getElem? n i hlt] at he
    simp only [Option.some.injEq] at he
    subst he
    exact ⟨(mem_pushIndices n i []).mpr (Or.inl hlt), rfl⟩
  · intro k hk
    have hlt : k < n := by
      have := (mem_pushIndices n k []).mp hk
      simpa using this
    rw [refCountAt_eq _ k _ (init_getElem? n k hlt)]
    decide

/-- Writing a referenced slot with an element that is referenced again keeps
the invariant. -/
theorem poolInvariant_set (h : StatusHandler) (i : Nat) (e e1 : Element)
    (hinv : h.PoolInvariant) (he : h.m_elements[i]? = some e) (hr : 1 ≤ e.refCounter)
    (hr1 : 1 ≤ e1.refCounter) :
    StatusHandler.PoolInvariant
      { m_elements := h.m_elements.set i e1, m_indices := h.m_indices } := by
  obtain ⟨h1, h2, h3⟩ := hinv
  have hni : i ∉ h.m_indices := by
    intro hi
    have := h3 i hi
    rw [refCountAt_eq h i e he] at this
    exact this hr
  refine ⟨?_, h2, ?_⟩
  · intro j e' hj hz
    by_cases hij : i = j
    · subst hij
      rw [getElem?_set_same e1 he] at hj
      simp only [Option.some.injEq] at hj
      subst hj
      omega
    · simp only [] at hj
      rw [List.getElem?_set_ne hij] at hj
      exact h1 j e' hj hz
  · intro k hk
    have hik : i ≠ k := fun hik => hni (hik ▸ hk)
    have := h3 k hk
    simpa [StatusHandler.refCountAt, List.getElem?_set_ne hik] using this

/-- The invariant is kept by `getAvailableIndex`. -/
theorem poolInvariant_getAvailableIndex (h h1 : StatusHandler) (k : Nat)
    (hinv : h.PoolInvariant) (hok : h.getAvailableIndex = Except.ok (h1, k)) :
    h1.PoolInvariant := by
  obtain ⟨rest, e, hst, he, rfl⟩ := getAvailableIndex_ok h h1 k hok
  obtain ⟨h1', h2, h3⟩ := hinv
  have hzero : e.refCounter = 0 := by
    have := h3 k (by rw [hst]; exact List.mem_cons_self k rest)
    rw [refCountAt_eq h k e he] at this
    omega
  rw [hst, List.nodup_cons] at h2
  refine ⟨?_, h2.2, ?_⟩
  · intro j e' hj hz
    by_cases hkj : k = j
    · subst hkj
      rw [getElem?_set_same _ he] at hj
      simp only [Option.some.injEq] at hj
      subst hj
      simp [hzero] at hz
    · simp only [] at hj
      rw [List.getElem?_set_ne hkj] at hj
      obtain ⟨hmem, hdata⟩ := h1' j e' hj hz
      rw [hst] at hmem
      rcases List.mem_cons.mp hmem with hjk | hjr
      · exact absurd hjk.symm hkj
      · exact ⟨hjr, hdata⟩
  · intro j hj
    have hkj : k ≠ j := fun hkj => h2.1 (hkj ▸ hj)
    have := h3 j (by rw [hst]; exact List.mem_cons_of_mem k hj)
    simpa [StatusHandler.refCountAt, List.getElem?_set_ne hkj] using this

/-- The invariant is kept by `incrementRef` on a slot with `1` to `254`
references. -/
theorem poolInvariant_incrementRef (h : StatusHandler) (i : Nat) (e : Element)
    (hinv : h.PoolInvariant) (he : h.m_elements[i]? = some e)
    (hr : 1 ≤ e.refCounter) (hr2 : e.refCounter < 255) :
    ∃ h1, h.incrementRef i = Except.ok h1 ∧ h1.PoolInvariant :=
  ⟨_, incrementRef_eq h i e he,
    poolInvariant_set h i e _ hinv he hr (by show 1 ≤ (e.refCounter + 1) % 256; omega)⟩

/-- The invariant is kept by `decrementRef` on a referenced slot. -/
theorem poolInvariant_decrementRef (h : StatusHandler) (i : Nat) (e : Element)
    (hinv : h.PoolInvariant) (he : h.m_elements[i]? = some e)
    (hr : 1 ≤ e.refCounter) :
    ∃ h1, h.decrementRef i = Except.ok h1 ∧ h1.PoolInvariant := by
  by_cases hz : (e.refCounter + 255) % 256 = 0
  · refine ⟨_, decrementRef_eq_zero h i e he hz, ?_⟩
    obtain ⟨h1, h2, h3⟩ := hinv
    have hni : i ∉ h.m_indices := by
      intro hi
      have := h3 i hi
      rw [refCountAt_eq h i e he] at this
      exact this hr
    refine ⟨?_, List.nodup_cons.mpr ⟨hni, h2⟩, ?_⟩
    · intro j e' hj hz'
      by_cases hij : i = j
      · subst hij
        rw [getElem?_set_same _ he] at hj
        simp only [Option.some.injEq] at hj
        subst hj
        exact ⟨List.mem_cons_self _ _, rfl⟩
      · simp only [] at hj
        rw [List.getElem?_set_ne hij] at hj
        obtain ⟨hmem, hdata⟩ := h1 j e' hj hz'
        exact ⟨List.mem_cons_of_mem i hmem, hdata⟩
    · intro k hk
      by_cases hik : i = k
      · subst hik
        simp [StatusHandler.refCountAt, getElem?_set_same _ he]
      · rcases List.mem_cons.mp hk with hki | hk'
        · exact absurd hki.symm hik
        · have := h3 k hk'
          simpa [StatusHandler.refCountAt, List.getElem?_set_ne hik] using this
  · exact ⟨_, decrementRef_eq_pos h i e he hz,
      poolInvariant_set h i e _ hinv he hr (by show 1 ≤ (e.refCounter + 255) % 256; omega)⟩

/-- The pool of one slot with `r` references is reachable for `1 ≤ r ≤ 255`. -/
theorem poolOne_reachable (r : Nat) (hr : r < 255) : (poolOne (r + 1)).Reachable 1 := by
  induction r with
  | zero =>
    have h0 : (StatusHandler.init 1).Reachable 1 := StatusHandler.Reachable.init
    have h1 := StatusHandler.Reachable.getAvailableIndex (StatusHandler.init 1)
      { m_elements := [{ data := "", refCounter := 1 }], m_indices := [] } 0 h0 rfl
    exact StatusHandler.Reachable.appendData _ (poolOne 1) 0 "a" h1 rfl
  | succ r ih =>
    have hprev := ih (by omega)
    have href : (poolOne (r + 1)).Referenced 0 :=
      ⟨by simp [poolOne], by simp [StatusHandler.refCountAt, poolOne]⟩
    have hinc : (poolOne (r + 1)).incrementRef 0 = Except.ok (poolOne (r + 1 + 1)) := by
      have hmod : (r + 1 + 1) % 256 = r + 1 + 1 := by omega
      simp [StatusHandler.incrementRef, poolOne, hmod]
    exact StatusHandler.Reachable.incrementRef _ _ 0 hprev href hinc

/-- C14 (code at the failing input). The pool of capacity one whose slot holds
"a" with `255` references is reachable from a fresh pool by calls that meet
their preconditions, satisfies the pool invariant, and slot `0` meets the
precondition of `incrementRef` (valid, reference count at least `1`). The call
`incrementRef(0)` returns with the 8 bit counter wrapped to `0`: the slot has
the reference count `0`, is not on the free stack and still holds "a", so the
pool invariant no longer holds. -/
theorem pool_invariant_broken_by_incrementRef :
    (poolOne 255).Reachable 1 ∧ (poolOne 255).PoolInvariant ∧ (poolOne 255).Referenced 0 ∧
    (poolOne 255).incrementRef 0 = Except.ok (poolOne 0) ∧
    (poolOne 0).refCountAt 0 = 0 ∧ 0 ∉ (poolOne 0).m_indices ∧ (poolOne 0).dataAt 0 = "a" ∧
    ¬ (poolOne 0).PoolInvariant := by
  refine ⟨poolOne_reachable 254 (by decide), ?_, ⟨by decide, by decide⟩, rfl, rfl,
    by decide, rfl, ?_⟩
  · refine ⟨?_, List.nodup_nil, ?_⟩
    · intro i e he hz
      cases i with
      | zero =>
        simp only [poolOne, List.getElem?_cons_zero, Option.some.injEq] at he
        subst he
        exact absurd hz (by decide)
      | succ i => simp [poolOne] at he
    · intro k hk
      simp [poolOne] at hk
  · intro hinv
    have := (hinv.1 0 { data := "a", refCounter := 0 } rfl rfl).1
    simp [poolOne] at this

/-! ## C15: clearDescription postcondition -/

/-- C15. Postcondition of `clearDescription`. Whenever `s.clearDescription()`
returns, `s` holds the sentinel afterwards: it has no description, reads the
empty string, and its code and severity are unchanged; when `s` held a slot
the new pool is exactly the result of `decrementRef` on that slot, when it
held none the pool is unchanged; and a second `clearDescription` right after
changes neither the pool nor the status. The call returns for every status
without description and for every status whose index is a slot of the pool;
for a slot with `r ≥ 1` references the pool is then the one described by the
release postcondition. -/
theorem clearDescription_postcondition (h : StatusHandler) (s : Status) :
    (∀ h1 s1, s.clearDescription h = Except.ok (h1, s1) →
      s1.data.index = INV_INDEX ∧ s1.containsDescription = false ∧
      s1.description h1 = Except.ok "" ∧ s1.code = s.code ∧ s1.severity = s.severity ∧
      (s.containsDescription = true → h.decrementRef s.data.index = Except.ok h1) ∧
      (s.containsDescription = false → h1 = h) ∧
      s1.clearDescription h1 = Except.ok (h1, s1)) ∧
    ((s.containsDescription = true → s.data.index < h.m_elements.length) →
      ∃ h1 s1, s.clearDescription h = Except.ok (h1, s1)) := by
  constructor
  · intro h1 s1 hok
    unfold Status.clearDescription at hok
    by_cases hs : s.containsDescription = true
    · simp only [hs, if_true] at hok
      cases hd : h.decrementRef s.data.index with
      | error x => simp [hd] at hok
      | ok h2 =>
        simp only [hd, Except.ok.injEq, Prod.mk.injEq] at hok
        obtain ⟨rfl, rfl⟩ := hok
        refine ⟨rfl, rfl, rfl, rfl, rfl, fun _ => rfl, fun hc => ?_, rfl⟩
        rw [hs] at hc
        exact absurd hc (by decide)
    · simp only [hs] at hok
      simp only [Bool.false_eq_true, if_false, Except.ok.injEq, Prod.mk.injEq] at hok
      obtain ⟨rfl, rfl⟩ := hok
      exact ⟨rfl, rfl, rfl, rfl, rfl, fun hc => absurd hc hs, fun _ => rfl, rfl⟩
  · intro hvalid
    unfold Status.clearDescription
    by_cases hs : s.containsDescription = true
    · have hlt := hvalid hs
      have he : h.m_elements[s.data.index]? = some h.m_elements[s.data.index] :=
        List.getElem?_eq_getElem hlt
      by_cases hz : (h.m_elements[s.data.index].refCounter + 255) % 256 = 0
      · simp only [hs, if_true, decrementRef_eq_zero h _ _ he hz]
        exact ⟨_, _, rfl⟩
      · simp only [hs, if_true, decrementRef_eq_pos h _ _ he hz]
        exact ⟨_, _, rfl⟩
    · simp only [hs]
      exact ⟨_, _, rfl⟩

/-- Witness of C15: clearing the description of the status that holds "X". -/
theorem clearDescription_postcondition_witness :
    (statusX.containsDescription = true → statusX.data.index < poolXY.m_elements.length) ∧
    ∃ h1 s1, statusX.clearDescription poolXY = Except.ok (h1, s1) ∧
      s1.containsDescription = false ∧ s1.description h1 = Except.ok "" ∧
      poolXY.decrementRef statusX.data.index = Except.ok h1 ∧
      s1.clearDescription h1 = Except.ok (h1, s1) := by
  have hthm := clearDescription_postcondition poolXY statusX
  have hvalid : statusX.containsDescription = true →
      statusX.data.index < poolXY.m_elements.length := fun _ => by decide
  obtain ⟨h1, s1, hok⟩ := hthm.2 hvalid
  obtain ⟨-, hc, hd, -, -, hdec, -, htwice⟩ := hthm.1 h1 s1 hok
  exact ⟨hvalid, h1, s1, hok, hc, hd, hdec (by decide), htwice⟩

/-! ## C16: merge preserves failure -/

/-- The merge of a described `other` into a `self` that has a description. -/
theorem addAssign_held (h : StatusHandler) (a b : Status) (Y : String) (e : Element)
    (ha : a.containsDescription = true) (hY : b.descriptionStd h = Except.ok Y)
    (he : h.m_elements[a.data.index]? = some e) (hr : 0 < e.refCounter) :
    Status.addAssign h a b = Except.ok
      ({ m_elements :=
            h.m_elements.set a.data.index { data := e.data ++ Y, refCounter := e.refCounter },
          m_indices := h.m_indices },
        { data := { code := mergeCode a.data.code b.data.code,
                    severity := mergeSeverity a.data.severity b.data.severity,
                    index := a.data.index } }) := by
  have hb : b.containsDescription = true := by
    by_contra hb
    simp [Status.descriptionStd, hb] at hY
  have hap := appendDescription_held h a Y e ha he hr
  simp [Status.addAssign, hb, hY, hap]

/-- Writing a slot without lowering its reference count keeps every slot that
was referenced referenced. -/
theorem referenced_set (l : List Element) (st st1 : List Nat) (i j : Nat) (e e1 : Element)
    (he : l[i]? = some e) (hle : i = j → 1 ≤ e1.refCounter)
    (hj : StatusHandler.Referenced { m_elements := l, m_indices := st } j) :
    StatusHandler.Referenced { m_elements := l.set i e1, m_indices := st1 } j := by
  obtain ⟨hlt, hr⟩ := hj
  refine ⟨by simpa using hlt, ?_⟩
  by_cases hij : i = j
  · subst hij
    simpa [StatusHandler.refCountAt, getElem?_set_same e1 he] using hle rfl
  · simpa [StatusHandler.refCountAt, List.getElem?_set_ne hij] using hr

/-- After a merge that the pool could serve, the new pool can serve every merge
into the new value that the old pool could serve into the old value. -/
theorem canServe_after (h h1 : StatusHandler) (a a1 b c : Status)
    (hs : CanServe h a b) (hok : Status.addAssign h a b = Except.ok (h1, a1))
    (hc : CanServe h a c) : CanServe h1 a1 c := by
  by_cases hb : b.containsDescription = true
  · obtain ⟨hrb, hra⟩ := hs hb
    obtain ⟨eb, heb, hrb'⟩ := (referenced_iff h _).mp hrb
    have hY : b.descriptionStd h = Except.ok eb.data := by
      simp [Status.descriptionStd, hb, getData_eq h _ eb heb hrb']
    by_cases ha : a.containsDescription = true
    · rw [if_pos ha] at hra
      obtain ⟨ea, hea, hra'⟩ := (referenced_iff h _).mp hra
      rw [addAssign_held h a b eb.data ea ha hY hea hra'] at hok
      simp only [Except.ok.injEq, Prod.mk.injEq] at hok
      obtain ⟨rfl, rfl⟩ := hok
      intro hcd
      obtain ⟨hrc, -⟩ := hc hcd
      have ha1 : Status.containsDescription
          { data := { code := mergeCode a.data.code b.data.code,
                      severity := mergeSeverity a.data.severity b.data.severity,
                      index := a.data.index } } = true := ha
      rw [if_pos ha1]
      exact ⟨referenced_set _ _ _ _ _ ea _ hea (fun _ => hra') hrc,
        referenced_set _ _ _ _ _ ea _ hea (fun _ => hra') hra⟩
    · have ha' : a.containsDescription = false := by simpa using ha
      rw [if_neg ha] at hra
      obtain ⟨k, hk, hlt, hek⟩ := hra
      obtain ⟨rest, hst⟩ : ∃ rest, h.m_indices = k :: rest := by
        cases hm : h.m_indices with
        | nil => simp [hm] at hk
        | cons x rest =>
          simp only [hm, List.head?_cons, Option.some.injEq] at hk
          exact ⟨rest, by rw [hk]⟩
      rw [addAssign_fresh h a b eb.data k rest ha' hY hst
        (by unfold INV_INDEX at hlt; omega) hek] at hok
      simp only [Except.ok.injEq, Prod.mk.injEq] at hok
      obtain ⟨rfl, rfl⟩ := hok
      intro hcd
      obtain ⟨hrc, -⟩ := hc hcd
      have ha1 : Status.containsDescription
          { data := { code := mergeCode a.data.code b.data.code,
                      severity := mergeSeverity a.data.severity b.data.severity,
                      index := k } } = true := by
        simp [Status.containsDescription]
        omega
      rw [if_pos ha1]
      refine ⟨referenced_set _ _ _ _ _ _ _ hek (fun _ => Nat.le_refl 1) hrc, ?_⟩
      refine ⟨?_, ?_⟩
      · simpa using lt_length_of_getElem? hek
      · simp [StatusHandler.refCountAt, getElem?_set_same _ hek]
  · have hb' : b.containsDescription = false := by simpa using hb
    rw [addAssign_no_description h a b hb'] at hok
    simp only [Except.ok.injEq, Prod.mk.injEq] at hok
    obtain ⟨rfl, rfl⟩ := hok
    exact hc

/-- The fold returns when the pool can serve each of its merges. -/
theorem mergeAll_returns (bs : List Status) (h : StatusHandler) (a : Status)
    (hs : ∀ b ∈ bs, CanServe h a b) : ∃ h1 r, mergeAll h a bs = Except.ok (h1, r) := by
  induction bs generalizing h a with
  | nil => exact ⟨h, a, rfl⟩
  | cons b bs ih =>
    have hsb := hs b (List.mem_cons_self b bs)
    obtain ⟨h1, a1, hok⟩ := addAssign_returns h a b hsb
    obtain ⟨h2, r, hall⟩ := ih h1 a1
      (fun c hc => canServe_after h h1 a a1 b c hsb hok (hs c (List.mem_cons_of_mem b hc)))
    exact ⟨h2, r, by simp only [mergeAll, hok, hall]⟩

/-- The code and severity after a fold are the folds of `mergeCode` and of
`mergeSeverity` over the codes and severities of the list. -/
theorem mergeAll_fields (bs : List Status) (h h1 : StatusHandler) (a r : Status)
    (hok : mergeAll h a bs = Except.ok (h1, r)) :
    r.data.code = List.foldl mergeCode a.data.code (bs.map (fun b => b.data.code)) ∧
    r.data.severity =
      List.foldl mergeSeverity a.data.severity (bs.map (fun b => b.data.severity)) := by
  induction bs generalizing h a with
  | nil =>
    simp only [mergeAll, Except.ok.injEq, Prod.mk.injEq] at hok
    rw [← hok.2]
    exact ⟨rfl, rfl⟩
  | cons b bs ih =>
    simp only [mergeAll] at hok
    cases hadd : Status.addAssign h a b with
    | error x => simp [hadd] at hok
    | ok p =>
      obtain ⟨h2, a1⟩ := p
      simp only [hadd] at hok
      obtain ⟨hc, hsv⟩ := ih h2 a1 hok
      obtain ⟨hsev1, hcode1⟩ := addAssign_fields h h2 a b a1 hadd
      simp only [List.map_cons, List.foldl_cons]
      rw [← hcode1, ← hsev1]
      exact ⟨hc, hsv⟩

theorem mergeCode_eq_zero (x y : Nat) : mergeCode x y = 0 ↔ x = 0 ∧ y = 0 := by
  simp only [mergeCode, StatusCode.toNat]
  split_ifs with hne
  · constructor
    · intro h1
      exact absurd h1 (by decide)
    · rintro ⟨rfl, rfl⟩
      exact absurd rfl hne
  · have hxy : y = x := not_not.mp hne
    subst hxy
    simp

theorem foldl_mergeCode_eq_zero (cs : List Nat) (x : Nat) :
    List.foldl mergeCode x cs = 0 ↔ x = 0 ∧ ∀ c ∈ cs, c = 0 := by
  induction cs generalizing x with
  | nil => simp
  | cons c cs ih =>
    simp only [List.foldl_cons, ih, mergeCode_eq_zero, List.mem_cons, forall_eq_or_imp]
    tauto

/-- C16. Merge preserves failure. Whenever `a += b` returns, the result is ok
(its conversion to `bool` is true, that is its code is NoError) if and only if
both `a` and `b` were ok; the merge returns whenever the pool can serve it.
Whenever the fold `a += b` over a list of statuses returns, the result is ok
if and only if `a` and every status of the list are ok; the fold returns
whenever the pool can serve each of its merges. -/
theorem merge_preserves_failure (h : StatusHandler) (a : Status) :
    (∀ (b : Status),
      (∀ h1 a1, Status.addAssign h a b = Except.ok (h1, a1) →
        (a1.toBool = true ↔ a.toBool = true ∧ b.toBool = true)) ∧
      (CanServe h a b → ∃ h1 a1, Status.addAssign h a b = Except.ok (h1, a1))) ∧
    (∀ (bs : List Status),
      (∀ h1 r, mergeAll h a bs = Except.ok (h1, r) →
        (r.toBool = true ↔ a.toBool = true ∧ ∀ b ∈ bs, b.toBool = true)) ∧
      ((∀ b ∈ bs, CanServe h a b) → ∃ h1 r, mergeAll h a bs = Except.ok (h1, r))) := by
  constructor
  · intro b
    refine ⟨?_, addAssign_returns h a b⟩
    intro h1 a1 hok
    have hc := (addAssign_fields h h1 a b a1 hok).2
    simp only [Status.toBool, StatusCode.toNat, beq_iff_eq, hc, mergeCode_eq_zero]
  · intro bs
    refine ⟨?_, mergeAll_returns bs h a⟩
    intro h1 r hok
    have hc := (mergeAll_fields bs h h1 a r hok).1
    simp only [Status.toBool, StatusCode.toNat, beq_iff_eq, hc, foldl_mergeCode_eq_zero,
      List.mem_map, forall_exists_index, and_imp, forall_apply_eq_imp_iff₂]

/-- Witness of C16: folding `true`, `true`, `false` gives a status that is not
ok. -/
theorem merge_preserves_failure_witness :
    (∀ b ∈ [Status.initBool true, Status.initBool false],
      CanServe poolXY (Status.initBool true) b) ∧
    ∃ h1 r, mergeAll poolXY (Status.initBool true)
        [Status.initBool true, Status.initBool false] = Except.ok (h1, r) ∧
      r.toBool = false := by
  have hserve : ∀ b ∈ [Status.initBool true, Status.initBool false],
      CanServe poolXY (Status.initBool true) b := by
    intro b hb hc
    simp only [List.mem_cons, List.mem_singleton, List.not_mem_nil, or_false] at hb
    rcases hb with rfl | rfl <;> exact absurd hc (by decide)
  have hthm := (merge_preserves_failure poolXY (Status.initBool true)).2
    [Status.initBool true, Status.initBool false]
  obtain ⟨h1, r, hok⟩ := hthm.2 hserve
  refine ⟨hserve, h1, r, hok, ?_⟩
  have hiff := hthm.1 h1 r hok
  cases hr : r.toBool with
  | false => rfl
  | true =>
    have := (hiff.mp hr).2 (Status.initBool false) (by simp)
    exact absurd this (by decide)

/-! ## C17: the severity merge as a fold -/

theorem mergeSeverity_eq (x y : Nat) (hx : x < 16) (hy : y < 16) :
    mergeSeverity x y =
      if x = y then x else if x = 0 then y else if y = 0 then x else min x y := by
  simp only [mergeSeverity, StatusSeverity.toNat]
  split_ifs <;> omega

theorem mergeSeverity_lt (x y : Nat) (hx : x < 16) (hy : y < 16) : mergeSeverity x y < 16 := by
  rw [mergeSeverity_eq x y hx hy]
  split_ifs <;> omega

theorem mergeSeverity_comm (x y : Nat) (hx : x < 16) (hy : y < 16) :
    mergeSeverity x y = mergeSeverity y x := by
  rw [mergeSeverity_eq x y hx hy, mergeSeverity_eq y x hy hx]
  split_ifs <;> omega

theorem mergeSeverity_assoc (x y z : Nat) (hx : x < 16) (hy : y < 16) (hz : z < 16) :
    mergeSeverity (mergeSeverity x y) z = mergeSeverity x (mergeSeverity y z) := by
  rw [mergeSeverity_eq _ z (mergeSeverity_lt x y hx hy) hz,
    mergeSeverity_eq x _ hx (mergeSeverity_lt y z hy hz),
    mergeSeverity_eq x y hx hy, mergeSeverity_eq y z hy hz]
  split_ifs <;> omega

theorem mergeSeverity_zero_left (x : Nat) (hx : x < 16) : mergeSeverity 0 x = x := by
  rw [mergeSeverity_eq 0 x (by decide) hx]
  split_ifs <;> omega

theorem foldl_mergeSeverity_perm {l1 l2 : List Nat} (p : l1.Perm l2)
    (hl : ∀ y ∈ l1, y < 16) (x : Nat) (hx : x < 16) :
    List.foldl mergeSeverity x l1 = List.foldl mergeSeverity x l2 := by
  induction p generalizing x with
  | nil => rfl
  | cons y _ ih =>
    simp only [List.foldl_cons]
    exact ih (fun z hz => hl z (List.mem_cons_of_mem y hz)) _
      (mergeSeverity_lt x y hx (hl y (List.mem_cons_self y _)))
  | swap y z l =>
    have hy : y < 16 := hl y (by simp)
    have hz : z < 16 := hl z (by simp)
    simp only [List.foldl_cons]
    rw [mergeSeverity_assoc x z y hx hz hy, mergeSeverity_comm z y hz hy,
      ← mergeSeverity_assoc x y z hx hy hz]
  | trans p1 _ ih1 ih2 =>
    rw [ih1 hl x hx]
    exact ih2 (fun y hy => hl y (p1.symm.subset hy)) x hx

/-- C17. The severity merge is an order independent fold. On 4 bit severity
values the function computed by `operator+=` is the one described (equal:
unchanged; one side `0`: the other; else the numeric minimum), stays within 4
bits, is commutative, associative and idempotent, and has Undefined (`0`) as
identity on both sides. Hence for two lists of statuses that are permutations
of each other, merging the tail of each list into its head with `+=` gives the
same severity whenever both folds return. A fold returns whenever the pool
can serve each of its merges, and its severity is the fold of the function
over the severities. -/
theorem severity_merge_order_independent :
    (∀ x y z : Nat, x < 16 → y < 16 → z < 16 →
      (mergeSeverity x y =
        if x = y then x else if x = 0 then y else if y = 0 then x else min x y) ∧
      mergeSeverity x y < 16 ∧
      mergeSeverity x y = mergeSeverity y x ∧
      mergeSeverity (mergeSeverity x y) z = mergeSeverity x (mergeSeverity y z) ∧
      mergeSeverity x x = x ∧
      mergeSeverity x StatusSeverity.STS_UNDEFINED.toNat = x ∧
      mergeSeverity StatusSeverity.STS_UNDEFINED.toNat x = x) ∧
    (∀ (h h' h1 h1' : StatusHandler) (a a' r r' : Status) (bs bs' : List Status),
      (a :: bs).Perm (a' :: bs') → (∀ s ∈ a :: bs, s.WellFormed) →
      mergeAll h a bs = Except.ok (h1, r) → mergeAll h' a' bs' = Except.ok (h1', r') →
      r.severity = r'.severity) ∧
    (∀ (h : StatusHandler) (a : Status) (bs : List Status), (∀ b ∈ bs, CanServe h a b) →
      ∃ h1 r, mergeAll h a bs = Except.ok (h1, r) ∧
        r.severity =
          List.foldl mergeSeverity a.severity (bs.map (fun b => b.severity))) := by
  refine ⟨?_, ?_, ?_⟩
  · intro x y z hx hy hz
    refine ⟨mergeSeverity_eq x y hx hy, mergeSeverity_lt x y hx hy,
      mergeSeverity_comm x y hx hy, mergeSeverity_assoc x y z hx hy hz, ?_, ?_, ?_⟩
    · simp [mergeSeverity]
    · rw [mergeSeverity_eq x _ hx (by decide)]
      simp only [StatusSeverity.toNat]
      split_ifs <;> omega
    · exact mergeSeverity_zero_left x hx
  · intro h h' h1 h1' a a' r r' bs bs' hperm hwf hok hok'
    have hsev := (mergeAll_fields bs h h1 a r hok).2
    have hsev' := (mergeAll_fields bs' h' h1' a' r' hok').2
    have hlt : ∀ y ∈ (a :: bs).map (fun b => b.data.severity), y < 16 := by
      intro y hy
      obtain ⟨s, hs, rfl⟩ := List.mem_map.mp hy
      exact (hwf s hs).2.1
    have hzero : ∀ (s : Status) (l : List Status), s.data.severity < 16 →
        List.foldl mergeSeverity s.data.severity (l.map (fun b => b.data.severity)) =
          List.foldl mergeSeverity 0 ((s :: l).map (fun b => b.data.severity)) := by
      intro s l hs
      simp only [List.map_cons, List.foldl_cons]
      rw [mergeSeverity_zero_left _ hs]
    have ha : a.data.severity < 16 := (hwf a (List.mem_cons_self a bs)).2.1
    have ha' : a'.data.severity < 16 :=
      (hwf a' (hperm.symm.subset (List.mem_cons_self a' bs'))).2.1
    unfold Status.severity
    rw [hsev, hsev', hzero a bs ha, hzero a' bs' ha']
    exact foldl_mergeSeverity_perm (hperm.map _) hlt 0 (by decide)
  · intro h a bs hserve
    obtain ⟨h1, r, hok⟩ := mergeAll_returns bs h a hserve
    exact ⟨h1, r, hok, (mergeAll_fields bs h h1 a r hok).2⟩

/-- Witness of C17: the severities `1, 2, 3`, and the statuses holding "X"
(Normal) and "Y" (Low) merged in both orders. -/
theorem severity_merge_order_independent_witness :
    mergeSeverity (mergeSeverity 1 2) 3 = mergeSeverity 1 (mergeSeverity 2 3) ∧
    [statusX, statusY].Perm [statusY, statusX] ∧
    (∀ s ∈ [statusX, statusY], s.WellFormed) ∧
    ∃ h1 h1' r r', mergeAll poolXY statusX [statusY] = Except.ok (h1, r) ∧
      mergeAll poolXY statusY [statusX] = Except.ok (h1', r') ∧
      r.severity = r'.severity := by
  have hthm := severity_merge_order_independent
  have hperm : [statusX, statusY].Perm [statusY, statusX] := List.Perm.swap statusY statusX []
  have hwf : ∀ s ∈ [statusX, statusY], s.WellFormed := by
    intro s hs
    simp only [List.mem_cons, List.mem_singleton, List.not_mem_nil, or_false] at hs
    rcases hs with rfl | rfl <;> (unfold Status.WellFormed; decide)
  have hserve : CanServe poolXY statusY statusX := by
    intro _
    refine ⟨⟨by decide, by decide⟩, ?_⟩
    rw [if_pos (by decide)]
    exact ⟨by decide, by decide⟩
  obtain ⟨h1, r, hok⟩ := mergeAll_returns [statusY] poolXY statusX
    (fun b hb => by rw [List.mem_singleton.mp hb]; exact canServe_poolXY)
  obtain ⟨h1', r', hok'⟩ := mergeAll_returns [statusX] poolXY statusY
    (fun b hb => by rw [List.mem_singleton.mp hb]; exact hserve)
  exact ⟨(hthm.1 1 2 3 (by decide) (by decide) (by decide)).2.2.2.1, hperm, hwf,
    h1, h1', r, r', hok, hok',
    hthm.2.1 poolXY poolXY h1 h1' statusX statusY r r' [statusY] [statusX] hperm hwf hok hok'⟩

/-! ## C18: the sentinel and the allocated indices -/

theorem incrementRef_length (h h1 : StatusHandler) (i : Nat)
    (hok : h.incrementRef i = Except.ok h1) :
    h1.m_elements.length = h.m_elements.length := by
  cases he : h.m_elements[i]? with
  | none => simp [StatusHandler.incrementRef, he] at hok
  | some e =>
    rw [incrementRef_eq h i e he] at hok
    simp only [Except.ok.injEq] at hok
    subst hok
    simp

theorem decrementRef_length (h h1 : StatusHandler) (i : Nat)
    (hok : h.decrementRef i = Except.ok h1) :
    h1.m_elements.length = h.m_elements.length := by
  cases he : h.m_elements[i]? with
  | none => simp [StatusHandler.decrementRef, he] at hok
  | some e =>
    by_cases hz : (e.refCounter + 255) % 256 = 0
    · rw [decrementRef_eq_zero h i e he hz] at hok
      simp only [Except.ok.injEq] at hok
      subst hok
      simp
    · rw [decrementRef_eq_pos h i e he hz] at hok
      simp only [Except.ok.injEq] at hok
      subst hok
      simp

/-- An index returned by `getAvailableIndex` is a slot of the pool, and the
pool keeps its number of slots. -/
theorem getAvailableIndex_lt (h h1 : StatusHandler) (k : Nat)
    (hok : h.getAvailableIndex = Except.ok (h1, k)) :
    k < h.m_elements.length ∧ h1.m_elements.length = h.m_elements.length := by
  obtain ⟨rest, e, -, he, rfl⟩ := getAvailableIndex_ok h h1 k hok
  exact ⟨lt_length_of_getElem? he, by simp⟩

/-- C18. The sentinel never collides with an allocated index. A pool
constructed with the initial size `n` has `n` slots and no operation of the
pool changes the number of slots. In every pool of at most `32768 = INV_INDEX`
slots every index returned by `getAvailableIndex` is below `32768`, so it is
stored unchanged in the 16 bit index field and differs from the sentinel;
whenever `appendDescription` returns on a status without description, the
status contains a description afterwards and holds the index the pool
returned; and it does return in every reachable state of such a pool whose
free stack is not empty. In a fresh pool of `32769` slots the first allocation
returns `32768`, the sentinel. -/
theorem sentinel_never_allocated :
    (∀ n, (StatusHandler.init n).m_elements.length = n) ∧
    (∀ (h h1 : StatusHandler) (i : Nat) (d : String),
      (h.incrementRef i = Except.ok h1 → h1.m_elements.length = h.m_elements.length) ∧
      (h.decrementRef i = Except.ok h1 → h1.m_elements.length = h.m_elements.length) ∧
      (h.appendData i d = Except.ok h1 → h1.m_elements.length = h.m_elements.length) ∧
      (h.getAvailableIndex = Except.ok (h1, i) →
        h1.m_elements.length = h.m_elements.length)) ∧
    (∀ (h h1 : StatusHandler) (k : Nat), h.m_elements.length ≤ 32768 →
      h.getAvailableIndex = Except.ok (h1, k) →
      k < 32768 ∧ k % 65536 = k ∧ k ≠ INV_INDEX) ∧
    (∀ (h h1 : StatusHandler) (s s1 : Status) (d : String), h.m_elements.length ≤ 32768 →
      s.containsDescription = false → s.appendDescription h d = Except.ok (h1, s1) →
      s1.containsDescription = true ∧
      ∃ h2, h.getAvailableIndex = Except.ok (h2, s1.data.index)) ∧
    (∀ (n : Nat) (h : StatusHandler) (s : Status) (d : String), n ≤ 32768 →
      h.Reachable n → h.m_indices ≠ [] → s.containsDescription = false →
      ∃ h1 s1, s.appendDescription h d = Except.ok (h1, s1)) ∧
    (∃ h1, (StatusHandler.init 32769).getAvailableIndex = Except.ok (h1, 32768)) ∧
    INV_INDEX = 32768 := by
  have hbound : ∀ (h h1 : StatusHandler) (k : Nat), h.m_elements.length ≤ 32768 →
      h.getAvailableIndex = Except.ok (h1, k) →
      k < 32768 ∧ k % 65536 = k ∧ k ≠ INV_INDEX := by
    intro h h1 k hlen hok
    have hk := (getAvailableIndex_lt h h1 k hok).1
    unfold INV_INDEX
    omega
  refine ⟨?_, ?_, hbound, ?_, ?_, ?_, rfl⟩
  · intro n
    simp [StatusHandler.init]
  · intro h h1 i d
    refine ⟨incrementRef_length h h1 i, decrementRef_length h h1 i, ?_,
      fun hok => (getAvailableIndex_lt h h1 i hok).2⟩
    intro hok
    obtain ⟨e, -, -, rfl⟩ := appendData_ok h h1 i d hok
    simp
  · intro h h1 s s1 d hlen hs hok
    unfold Status.appendDescription at hok
    simp only [hs, Bool.not_false, if_true] at hok
    cases hg : h.getAvailableIndex with
    | error x => simp [hg] at hok
    | ok p =>
      obtain ⟨h2, k⟩ := p
      obtain ⟨hk, hmod, hne⟩ := hbound h h2 k hlen hg
      simp only [hg, hmod] at hok
      cases hx : h2.appendData k d with
      | error x => simp [hx] at hok
      | ok h3 =>
        simp only [hx, Except.ok.injEq, Prod.mk.injEq] at hok
        rw [← hok.2]
        exact ⟨by simpa [Status.containsDescription] using hne, h2, rfl⟩
  · intro n h s d hn hreach hne hs
    obtain ⟨hlen, -, hclean⟩ := clean_of_reachable n h hreach
    obtain ⟨k, rest, hst⟩ : ∃ k rest, h.m_indices = k :: rest := by
      cases hm : h.m_indices with
      | nil => exact absurd hm hne
      | cons k rest => exact ⟨k, rest, rfl⟩
    have hek := hclean k (by rw [hst]; exact List.mem_cons_self k rest)
    have hk : k < 65536 := by
      have := lt_length_of_getElem? hek
      omega
    exact ⟨_, _, appendDescription_fresh h s d k rest _ hs hst hk hek (by decide)⟩
  · exact ⟨_, getAvailableIndex_cons (StatusHandler.init 32769) 32768 (pushIndices 32768 [])
      _ (pushIndices_succ 32768 []) (init_getElem? 32769 32768 (by decide))⟩

/-- Witness of C18: the first allocation and the first `appendDescription` in a
fresh pool of capacity two. -/
theorem sentinel_never_allocated_witness :
    (StatusHandler.init 2).m_elements.length ≤ 32768 ∧
    (∃ h1 k, (StatusHandler.init 2).getAvailableIndex = Except.ok (h1, k) ∧
      k < 32768 ∧ k % 65536 = k ∧ k ≠ INV_INDEX) ∧
    ∃ h1 s1, (Status.initBool false).appendDescription (StatusHandler.init 2) "a" =
        Except.ok (h1, s1) ∧
      s1.containsDescription = true ∧
      ∃ h2, (StatusHandler.init 2).getAvailableIndex = Except.ok (h2, s1.data.index) := by
  have hthm := sentinel_never_allocated
  have hlen : (StatusHandler.init 2).m_elements.length ≤ 32768 := by decide
  obtain ⟨h1, s1, hap⟩ := hthm.2.2.2.2.1 2 (StatusHandler.init 2) (Status.initBool false) "a"
    (by decide) StatusHandler.Reachable.init (by decide) rfl
  exact ⟨hlen,
    ⟨_, 1, rfl, hthm.2.2.1 (StatusHandler.init 2) _ 1 hlen rfl⟩,
    h1, s1, hap,
    hthm.2.2.2.1 (StatusHandler.init 2) h1 (Status.initBool false) s1 "a" hlen rfl hap⟩

/-! ## C19: recycled slots -/

/-- The slot released by `decrementRef` at reference count `1` is the next one
allocated, with empty text; a status built right after the only holder of a
slot was destroyed stores exactly its own text in that slot. -/
theorem recycled_storedText (h : StatusHandler) (i : Nat) (old : String)
    (he : h.m_elements[i]? = some { data := old, refCounter := 1 }) :
    (∃ h1 h2, h.decrementRef i = Except.ok h1 ∧ h1.getAvailableIndex = Except.ok (h2, i) ∧
      h2.refCountAt i = 1 ∧ h2.dataAt i = "" ∧ h2.m_indices = h.m_indices ∧
      ∀ j, j ≠ i → h2.m_elements[j]? = h.m_elements[j]?) ∧
    (∀ (d : Status) (code : StatusCode) (sev : StatusSeverity) (t : String),
      d.WellFormed → d.containsDescription = true → d.data.index = i → t ≠ "" →
      ∃ h1 h2 s, d.destroy h = Except.ok h1 ∧
        Status.initStd h1 code sev t = Except.ok (h2, s) ∧
        s.data.index = d.data.index ∧ s.containsDescription = true ∧
        s.storedText h2 = Except.ok t ∧ h2.refCountAt i = 1 ∧
        s.code = code.toNat ∧ s.severity = sev.toNat) := by
  have hdec := decrementRef_eq_zero h i _ he (show (1 + 255) % 256 = 0 from rfl)
  have he1 : (h.m_elements.set i { data := "", refCounter := 0 })[i]? =
      some { data := "", refCounter := 0 } := getElem?_set_same _ he
  constructor
  · have hget := getAvailableIndex_cons
      { m_elements := h.m_elements.set i { data := "", refCounter := 0 },
        m_indices := i :: h.m_indices }
      i h.m_indices _ rfl he1
    simp only [List.set_set] at hget
    refine ⟨_, _, hdec, hget, ?_, ?_, rfl, ?_⟩
    · simp [StatusHandler.refCountAt, getElem?_set_same _ he]
    · simp [StatusHandler.dataAt, getElem?_set_same _ he]
    · intro j hj
      exact List.getElem?_set_ne (fun hij => hj hij.symm)
  · intro d code sev t hw hd hdi ht
    subst hdi
    have hdes : d.destroy h = Except.ok
        { m_elements := h.m_elements.set d.data.index { data := "", refCounter := 0 },
          m_indices := d.data.index :: h.m_indices } := by
      simp [Status.destroy, hd, hdec]
    have hinit := initStd_fresh
      { m_elements := h.m_elements.set d.data.index { data := "", refCounter := 0 },
        m_indices := d.data.index :: h.m_indices }
      code sev t d.data.index h.m_indices ht rfl hw.2.2 he1
    simp only [List.set_set] at hinit
    have hc : Status.containsDescription
        { data := { code := code.toNat, severity := sev.toNat, index := d.data.index } }
        = true := hd
    refine ⟨_, _, _, hdes, hinit, rfl, hc, ?_, ?_, rfl, rfl⟩
    · exact storedText_set h.m_elements h.m_indices
        { data := { code := code.toNat, severity := sev.toNat, index := d.data.index } }
        _ { data := t, refCounter := 1 } hc he Nat.zero_lt_one
    · simp [StatusHandler.refCountAt, getElem?_set_same _ he]

/-- C19 (as amended). Recycled slots carry no stale text. For every pool and
every valid index `i` whose slot has the reference count `1` and any text,
`decrementRef(i)` returns and the next `getAvailableIndex` returns `i` itself;
slot `i` then has the reference count `1` and empty text, the free stack is
the one before the release and every other slot is unchanged. Hence when a
status `d` is the only holder of its slot, destroying `d` and then building
`Status(code, severity, t)` with a non empty text returns a status that holds
the slot `d` held and stores exactly `t`; `description()` reads `t` up to the
first terminator, hence exactly `t` when `t` holds none. -/
theorem recycled_slot_is_clean (h : StatusHandler) (i : Nat) (old : String)
    (he : h.m_elements[i]? = some { data := old, refCounter := 1 }) :
    (∃ h1 h2, h.decrementRef i = Except.ok h1 ∧ h1.getAvailableIndex = Except.ok (h2, i) ∧
      h2.refCountAt i = 1 ∧ h2.dataAt i = "" ∧ h2.m_indices = h.m_indices ∧
      ∀ j, j ≠ i → h2.m_elements[j]? = h.m_elements[j]?) ∧
    (∀ (d : Status) (code : StatusCode) (sev : StatusSeverity) (t : String),
      d.WellFormed → d.containsDescription = true → d.data.index = i → t ≠ "" →
      ∃ h1 h2 s, d.destroy h = Except.ok h1 ∧
        Status.initStd h1 code sev t = Except.ok (h2, s) ∧
        s.data.index = d.data.index ∧ s.containsDescription = true ∧
        s.descriptionStd h2 = Except.ok t ∧ s.description h2 = Except.ok (c_str t) ∧
        (NulFree t → s.description h2 = Except.ok t) ∧ h2.refCountAt i = 1 ∧
        s.code = code.toNat ∧ s.severity = sev.toNat) := by
  obtain ⟨hpool, hstatus⟩ := recycled_storedText h i old he
  refine ⟨hpool, ?_⟩
  intro d code sev t hw hd hdi ht
  obtain ⟨h1, h2, s, hdes, hinit, hidx, hc, htxt, hrest⟩ := hstatus d code sev t hw hd hdi ht
  exact ⟨h1, h2, s, hdes, hinit, hidx, hc, descriptionStd_of_storedText h2 s t hc htxt,
    description_of_storedText h2 s t htxt, description_of_nulFree h2 s t htxt, hrest⟩

/-- Witness of C19: the status holding "X" is destroyed and a status with the
text "new" is built. -/
theorem recycled_slot_is_clean_witness :
    poolXY.m_elements[1]? = some { data := "X", refCounter := 1 } ∧
    statusX.WellFormed ∧ statusX.containsDescription = true ∧ statusX.data.index = 1 ∧
    ("new" : String) ≠ "" ∧ NulFree "new" ∧
    ∃ h1 h2 s, statusX.destroy poolXY = Except.ok h1 ∧
      Status.initStd h1 StatusCode.STC_NO_ERROR StatusSeverity.STS_LOW "new" =
        Except.ok (h2, s) ∧
      s.data.index = statusX.data.index ∧ s.containsDescription = true ∧
      s.description h2 = Except.ok "new" ∧ h2.refCountAt 1 = 1 := by
  have wx : statusX.WellFormed := by unfold Status.WellFormed; decide
  have hn : NulFree "new" := by unfold NulFree; decide
  obtain ⟨h1, h2, s, hdes, hinit, hidx, hc, -, -, hd, hr, -⟩ :=
    (recycled_slot_is_clean poolXY 1 "X" rfl).2 statusX StatusCode.STC_NO_ERROR
      StatusSeverity.STS_LOW "new" wx (by decide) rfl (by decide)
  exact ⟨rfl, wx, by decide, rfl, by decide, hn, h1, h2, s, hdes, hinit, hidx, hc, hd hn, hr⟩

/-- Counterexample to C19 as stated. In the pool of two described statuses the
only holder of slot `1` is destroyed and a status is built from the text "a",
terminator, "b"; it reuses slot `1`, and `description()` reads "a", which is
not the text it was built with. -/
theorem recycled_slot_counterexample :
    textWithNul ≠ "" ∧
    (∃ h1 h2 s, statusX.destroy poolXY = Except.ok h1 ∧
      Status.initStd h1 StatusCode.STC_NO_ERROR StatusSeverity.STS_LOW textWithNul =
        Except.ok (h2, s) ∧
      s.data.index = statusX.data.index ∧ s.description h2 = Except.ok "a") ∧
    ("a" : String) ≠ textWithNul :=
  ⟨by decide, ⟨_, _, _, rfl, rfl, rfl, rfl⟩, by decide⟩



/-! ## C20: copies share their description -/

/-- The stored text seen through a status and through its copy after an append
through the copy, and after `a += b` on a shared slot. -/
theorem copies_share_storedText (h : StatusHandler) (s : Status) (t : String)
    (hw : s.WellFormed) (hs : s.containsDescription = true)
    (ht : s.storedText h = Except.ok t) :
    (∃ h1 c, Status.copy h s = Except.ok (h1, c)) ∧
    (∀ h1 c, Status.copy h s = Except.ok (h1, c) →
      c.data.index = s.data.index ∧
      (h.refCountAt s.data.index < 255 → h1.Referenced c.data.index) ∧
      (h1.Referenced c.data.index → ∀ u : String,
        ∃ h2 c2, c.appendDescription h1 u = Except.ok (h2, c2) ∧
          c2.data.index = s.data.index ∧
          s.storedText h2 = Except.ok (t ++ u) ∧ c2.storedText h2 = Except.ok (t ++ u))) ∧
    (∀ a : Status, a.data.index = s.data.index →
      ∃ h2 a2, Status.addAssign h a s = Except.ok (h2, a2) ∧
        a2.storedText h2 = Except.ok (t ++ t) ∧ s.storedText h2 = Except.ok (t ++ t)) := by
  have htg : h.getData s.data.index = Except.ok t := by
    simpa [Status.storedText, hs] using ht
  obtain ⟨e, he, hr, hdata⟩ := getData_ok h _ t htg
  subst hdata
  have hcopy := copy_held h s e hw hs he
  refine ⟨⟨_, _, hcopy⟩, ?_, ?_⟩
  · intro h1 c hok
    rw [hcopy] at hok
    simp only [Except.ok.injEq, Prod.mk.injEq] at hok
    obtain ⟨rfl, rfl⟩ := hok
    have he1 : (h.m_elements.set s.data.index
        { data := e.data, refCounter := (e.refCounter + 1) % 256 })[s.data.index]? =
          some { data := e.data, refCounter := (e.refCounter + 1) % 256 } :=
      getElem?_set_same _ he
    refine ⟨rfl, ?_, ?_⟩
    · intro hlt
      rw [refCountAt_eq h _ e he] at hlt
      refine ⟨by simpa using lt_length_of_getElem? he, ?_⟩
      rw [refCountAt_eq _ _ _ he1]
      show 1 ≤ (e.refCounter + 1) % 256
      omega
    · intro href u
      have hpos : 0 < (e.refCounter + 1) % 256 := by
        have := href.2
        rw [refCountAt_eq _ _ _ he1] at this
        exact this
      have hap := appendDescription_held
        { m_elements := h.m_elements.set s.data.index
            { data := e.data, refCounter := (e.refCounter + 1) % 256 },
          m_indices := h.m_indices }
        s u _ hs he1 hpos
      simp only [List.set_set] at hap
      have hd := storedText_set h.m_elements h.m_indices s e
        { data := e.data ++ u, refCounter := (e.refCounter + 1) % 256 } hs he hpos
      exact ⟨_, s, hap, rfl, hd, hd⟩
  · intro a ha
    have hac : a.containsDescription = true := by
      simpa [Status.containsDescription, ha] using hs
    have hY : s.descriptionStd h = Except.ok e.data := by
      simp [Status.descriptionStd, hs, htg]
    have hadd := addAssign_held h a s e.data e hac hY (by rw [ha]; exact he) hr
    rw [ha] at hadd
    have hd := storedText_set h.m_elements h.m_indices s e
      { data := e.data ++ e.data, refCounter := e.refCounter } hs he hr
    refine ⟨_, _, hadd, ?_, hd⟩
    simpa [Status.storedText, Status.containsDescription] using hd

/-- C20 (as amended). Copies share their description. Let `s` be a status
whose slot holds the text `t`. The copy constructor returns a status `c` that
holds the index of `s`. When the slot had at most `254` references before the
copy it is referenced afterwards, and for every text `u` the call
`c.appendDescription(u)` returns, the text read through `s` and through `c` is
`t ++ u`, and `description()` reads `t ++ u` up to the first terminator on
both, hence `t ++ u` itself when neither text holds one. In particular, when
`a` holds the slot of `b = s`, then `a += b` returns and both `a` and `b` read
`t ++ t` up to the first terminator afterwards, hence `t ++ t` when `t` holds
none. -/
theorem copies_share_description (h : StatusHandler) (s : Status) (t : String)
    (hw : s.WellFormed) (ht : s.descriptionStd h = Except.ok t) :
    (∃ h1 c, Status.copy h s = Except.ok (h1, c)) ∧
    (∀ h1 c, Status.copy h s = Except.ok (h1, c) →
      c.data.index = s.data.index ∧
      (h.refCountAt s.data.index < 255 →
        h1.Referenced c.data.index ∧
        ∀ u : String, ∃ h2 c2, c.appendDescription h1 u = Except.ok (h2, c2) ∧
          c2.data.index = s.data.index ∧
          s.descriptionStd h2 = Except.ok (t ++ u) ∧
          c2.descriptionStd h2 = Except.ok (t ++ u) ∧
          s.description h2 = Except.ok (c_str (t ++ u)) ∧
          c2.description h2 = Except.ok (c_str (t ++ u)) ∧
          (NulFree t → NulFree u →
            s.description h2 = Except.ok (t ++ u) ∧
            c2.description h2 = Except.ok (t ++ u)))) ∧
    (∀ a : Status, a.data.index = s.data.index →
      ∃ h2 a2, Status.addAssign h a s = Except.ok (h2, a2) ∧
        s.descriptionStd h2 = Except.ok (t ++ t) ∧
        a2.description h2 = Except.ok (c_str (t ++ t)) ∧
        s.description h2 = Except.ok (c_str (t ++ t)) ∧
        (NulFree t →
          a2.description h2 = Except.ok (t ++ t) ∧
          s.description h2 = Except.ok (t ++ t))) := by
  obtain ⟨hs, hst⟩ := storedText_of_descriptionStd h s t ht
  obtain ⟨hret, hcopy, hmerge⟩ := copies_share_storedText h s t hw hs hst
  refine ⟨hret, ?_, ?_⟩
  · intro h1 c hok
    obtain ⟨hidx, href, happ⟩ := hcopy h1 c hok
    refine ⟨hidx, fun hlt => ⟨href hlt, ?_⟩⟩
    intro u
    obtain ⟨h2, c2, hap, hidx2, hs2, hc2⟩ := happ (href hlt) u
    exact ⟨h2, c2, hap, hidx2, descriptionStd_of_storedText h2 s _ hs hs2,
      descriptionStd_of_storedText h2 c2 _ (contains_of_index s c2 hidx2 hs) hc2,
      description_of_storedText h2 s _ hs2, description_of_storedText h2 c2 _ hc2,
      fun hnt hnu =>
        ⟨description_of_nulFree h2 s _ hs2 (nulFree_append t u hnt hnu),
          description_of_nulFree h2 c2 _ hc2 (nulFree_append t u hnt hnu)⟩⟩
  · intro a ha
    obtain ⟨h2, a2, hadd, ha2, hs2⟩ := hmerge a ha
    exact ⟨h2, a2, hadd, descriptionStd_of_storedText h2 s _ hs hs2,
      description_of_storedText h2 a2 _ ha2, description_of_storedText h2 s _ hs2,
      fun hnt =>
        ⟨description_of_nulFree h2 a2 _ ha2 (nulFree_append t t hnt hnt),
          description_of_nulFree h2 s _ hs2 (nulFree_append t t hnt hnt)⟩⟩

/-- Witness of C20: the status holding "X" is copied and "!" is appended
through the copy; the same status is merged into itself. -/
theorem copies_share_description_witness :
    statusX.WellFormed ∧ statusX.descriptionStd poolXY = Except.ok "X" ∧
    poolXY.refCountAt statusX.data.index < 255 ∧ NulFree "X" ∧ NulFree "!" ∧
    (∃ h1 c, Status.copy poolXY statusX = Except.ok (h1, c) ∧
      h1.Referenced c.data.index ∧
      ∃ h2 c2, c.appendDescription h1 "!" = Except.ok (h2, c2) ∧
        c2.data.index = statusX.data.index ∧
        statusX.description h2 = Except.ok ("X" ++ "!") ∧
        c2.description h2 = Except.ok ("X" ++ "!")) ∧
    ∃ h2 a2, Status.addAssign poolXY statusX statusX = Except.ok (h2, a2) ∧
      a2.description h2 = Except.ok ("X" ++ "X") ∧
      statusX.description h2 = Except.ok ("X" ++ "X") := by
  have wx : statusX.WellFormed := by unfold Status.WellFormed; decide
  have hx : NulFree "X" := by unfold NulFree; decide
  have hb : NulFree "!" := by unfold NulFree; decide
  have hlt : poolXY.refCountAt statusX.data.index < 255 := by decide
  have hthm := copies_share_description poolXY statusX "X" wx rfl
  obtain ⟨h1, c, hok⟩ := hthm.1
  obtain ⟨-, hcopy⟩ := hthm.2.1 h1 c hok
  obtain ⟨href, happ⟩ := hcopy hlt
  obtain ⟨h2, c2, hap, hidx2, -, -, -, -, hd⟩ := happ "!"
  obtain ⟨h3, a2, hadd, -, -, -, hm⟩ := hthm.2.2 statusX rfl
  exact ⟨wx, rfl, hlt, hx, hb, ⟨h1, c, hok, href, h2, c2, hap, hidx2, hd hx hb⟩,
    h3, a2, hadd, hm hx⟩

/-- Counterexample to C20 as stated. First, in the pool where slot `1` holds
the text "a", terminator, "b", the status holding slot `1` is copied and "!"
is appended through the copy: the text of the slot is the old text followed by
"!", but `description()` on the original reads "a". Second, after a
descriptive status was built in a fresh pool of the default capacity and
copied `254` times, slot `31` has `255` references; one more copy returns with
the 8 bit count at `0`, and `appendDescription` through that copy fails the
assertion `refCounter > 0` instead of changing the shared text. -/
theorem copies_share_description_counterexample :
    (statusX.descriptionStd poolNul = Except.ok textWithNul ∧
      ∃ h1 c h2 c2, Status.copy poolNul statusX = Except.ok (h1, c) ∧
        c.appendDescription h1 "!" = Except.ok (h2, c2) ∧
        statusX.descriptionStd h2 = Except.ok (textWithNul ++ "!") ∧
        statusX.description h2 = Except.ok "a" ∧
        ("a" : String) ≠ textWithNul ++ "!") ∧
    (World.run { handler := StatusHandler.init 32, live := [] }
        (Op.construct StatusCode.STC_INTERNAL_ERROR StatusSeverity.STS_CRITICAL "a" ::
          List.replicate 254 (Op.copy 0)) =
        Except.ok { handler := pool31 255, live := List.replicate 255 status31 } ∧
      status31.descriptionStd (pool31 255) = Except.ok "a" ∧
      Status.copy (pool31 255) status31 = Except.ok (pool31 0, status31) ∧
      status31.appendDescription (pool31 0) "!" = Except.error Abort.refCounterZero) := by
  refine ⟨⟨rfl, _, _, _, _, rfl, rfl, rfl, rfl, by decide⟩, ?_, ?_, ?_, ?_⟩
  · have hrun := run_copies 254 (pool31 1).m_elements (pool31 1).m_indices [status31]
      status31 "a" 1 status31_wellFormed (by decide) rfl (pool31_slot 1) (by decide)
    rw [run_cons _ _ _ _ pool31_built]
    refine hrun.trans ?_
    simp only [pool31, List.set_set]
    rfl
  · have hc : status31.containsDescription = true := by decide
    rw [Status.descriptionStd, if_pos hc]
    exact getData_eq (pool31 255) _ _ (pool31_slot 255) (by decide)
  · have hcopy := copy_held (pool31 255) status31 _ status31_wellFormed (by decide)
      (pool31_slot 255)
    rw [hcopy]
    simp only [pool31, List.set_set]
    rfl
  · have hc : status31.containsDescription = true := by decide
    simp [Status.appendDescription, hc, StatusHandler.appendData, pool31_slot 0]



end StatusLib
